import Mathlib

/-!
Verification of the WaveFlow implementation (`waveflow/modules.py`).

The height axis (dim 2 of a `BxCxHxW` tensor, the "time" axis of the
squeezed grid) is modelled as a `List`; one list entry is the whole
`B×C×W` slab at that height.  All per-row operations of the network
(convolution kernel rows acting along the width/channel axes, 1×1
convolutions, activations) are modelled as abstract functions on abstract
row types, since every claim under study is about how rows are routed,
combined and permuted along the height axis, not about the numeric content
of a row.  Signal rows (one channel) are concrete `Fin W → ℚ` vectors so
that the affine flow arithmetic `exp(logvar) * x + mean` is the real
pointwise ring arithmetic; the scalar `torch.exp` is an abstract function
parameter `e`.

A 2-D convolution whose kernel has `k` rows, dilation `d` and width padding
`padding_w` acts along the height axis as
`out[t] = Σ_u tap_u (in[t - (k-1)*d + u*d])`, where `tap_u` is the (linear)
action of kernel row `u` along the width/channel axes — identical in
parallel and streaming mode, since only the height padding is ever changed
(modules.py lines 80–81, 197); rows outside the input are the zero padding,
and the zero row is mapped through the taps on both evaluation paths.
-/

namespace Waveflow

universe u v w

/-- Row of a one-channel (signal / mean / logvar) tensor at a fixed height:
the vector of values along the width axis, over the scalar type `R` (the
exact-number model of the float samples; instantiable with ℚ, ℝ or ℤ — all
source operations are ring operations, `min` and the abstract `exp`). -/
abbrev Row (R : Type*) (W : ℕ) := Fin W → R

/-- Padded list access with integer index: zero outside `[0, length)`.
Used to express the zero padding of the causal convolutions. -/
def zat {α : Type*} [Zero α] (l : List α) (i : ℤ) : α :=
  if 0 ≤ i then l.getD i.toNat 0 else 0

/-- `full_flip` (modules.py line 13): `torch.flip(x, (2,))`, i.e. reverse the
height axis. -/
def full_flip {α : Type*} (x : List α) : List α := x.reverse

/-- Semantics of `torch.split(x, s, dim)` along the modelled axis: chunks of
size `s`, the last chunk smaller if the length is not divisible.  Faithful to
ATen: `split_size = 0` is only legal when the dimension has size 0, in which
case a single empty chunk is returned; the chunk count is
`max(⌈len/s⌉, 1)`. -/
def torchSplit {α : Type*} (s : ℕ) (x : List α) : Option (List (List α)) :=
  if s = 0 ∧ x.length ≠ 0 then none
  else some ((List.range (max ((x.length + s - 1) / s) 1)).map
    (fun j => ((x.drop (j * s)).take s)))

/-- `half_flip` (modules.py lines 15–22) as the code runs it:
`x1, x2 = torch.split(x, x.shape[2]//2, 2)` (a 2-unpacking that fails unless
the split yields exactly two chunks), then each part is reversed and the
parts are concatenated.  `none` models the runtime error. -/
def half_flip_run {α : Type*} (x : List α) : Option (List α) :=
  match torchSplit (x.length / 2) x with
  | some [x1, x2] => some (x1.reverse ++ x2.reverse)
  | _ => none

/-- Total version of `half_flip`, agreeing with `half_flip_run` on every
input where the latter succeeds (even positive height): reverse the two
halves of the height axis independently. -/
def half_flip {α : Type*} (x : List α) : List α :=
  (x.take (x.length / 2)).reverse ++ (x.drop (x.length / 2)).reverse

/-! ### Squeeze reshape (modules.py lines 303–305, 362–363, 412)

`x.reshape(B, C, L//h, -1).transpose(2, 3)` first forms the grid
`pre[r][s] = raw[r*h + s]` (`r < L/h` rows of `h` columns) and then swaps the
two axes, so the grid actually processed has `h` rows (the height axis that
`full_flip`/`half_flip` and the per-step loops act on) of `L/h` columns, with
entry `(i, j) = raw[j*h + i]`. -/

/-- The squeezed grid: `h` height rows, each a width-`W` slab, entry
`(i, j) = raw[j*h + i]`.  Faithful to the source for `raw.length = h*W`
(the reshape requires divisibility). -/
def squeeze {α : Type*} [Zero α] (h W : ℕ) (raw : List α) : List (Fin W → α) :=
  List.ofFn (fun i : Fin h => fun j : Fin W => raw.getD (j.1 * h + i.1) 0)

/-- Inverse reshape at the end of `synthesize`/`synthesize_fast`
(`z.transpose(2,3).reshape(B, -1)`, lines 380, 423): column `j` of the grid
contributes the block of samples `j*h .. j*h+h-1`. -/
def unsqueeze {α : Type*} {W : ℕ} (g : List (Fin W → α)) : List α :=
  (List.finRange W).flatMap (fun j => g.map (fun r => r j))

/-! ### Dilation schedule and receptive field (modules.py lines 127–129, 261) -/

/-- Dilations of the residual blocks in one stack
(`ResidualBlock(2**i) for i in np.arange(hp.n_layer) % hp.cycle_size`,
modules.py lines 127–129). -/
def stack_dilations (n_layer cycle_size : ℕ) : List ℕ :=
  (List.range n_layer).map (fun i => 2 ^ (i % cycle_size))

/-- `WaveFlow.receptive_field` (modules.py line 261):
`(kernel_size-1) * sum(2**(i % cycle_size) for i in range(n_layer)) + 1`. -/
def receptive_field (kernel_size cycle_size n_layer : ℕ) : ℕ :=
  (kernel_size - 1) * ((List.range n_layer).map (fun i => 2 ^ (i % cycle_size))).sum + 1

/-! ### Flip schedules of `forward` and `synthesize` (lines 325–326, 368–369) -/

/-- Permutation applied to `x` and `c` after flow `i` of `forward`
(modules.py lines 325–326): `full_flip(x) if i < 4 else half_flip(x)`. -/
def forward_flip {α : Type*} (i : ℕ) (x : List α) : List α :=
  if i < 4 then full_flip x else half_flip x

/-- Permutation applied to `z` and `c` at iteration `i` of the reversed-flow
loop of `synthesize`/`synthesize_fast` (modules.py lines 368–369, 418–419):
`full_flip(z) if i > 4 else half_flip(z)`. -/
def synth_flip {α : Type*} (i : ℕ) (x : List α) : List α :=
  if 4 < i then full_flip x else half_flip x

/-! ### The coupling network (`ResidualBlock` / `ResidualStack`, modules.py 24–171) -/

/-- Elementwise combination of three equal-length lists. -/
def zipWith3 {α β γ δ : Type*} (f : α → β → γ → δ) :
    List α → List β → List γ → List δ
  | a :: as, b :: bs, c :: cs => f a b c :: zipWith3 f as bs cs
  | _, _, _ => []

/-- Pointwise application of the scalar `torch.exp` to a row. -/
def rowExp {R : Type*} (e : R → R) {W : ℕ} (r : Row R W) : Row R W := fun w => e (r w)

/-- `torch.clamp(logvar, max=10)` (modules.py line 313), pointwise. -/
def clampRow {R : Type*} [LinearOrderedCommRing R] {W : ℕ} (r : Row R W) :
    Row R W := fun w => min (r w) 10

/-- Parameters of one `ResidualBlock` (modules.py lines 24–114).
`tapsA`/`tapsB` are the `xa`/`xb` channel halves of `initial_conv`'s kernel
rows, `cdtA`/`cdtB` the halves of the 1×1 `cdtconv`, `gate a b` is
`tanh(a) * sigmoid(b)`, and `resconv`/`skipconv` the 1×1 output
projections.  Weight normalization is an inference-time reparameterization
collapsed into these maps. -/
structure ResidualBlock (γ : Type u) (V : Type v) (k : ℕ) where
  dilation : ℕ
  tapsA : Fin k → V → V
  tapsB : Fin k → V → V
  cdtA : γ → V
  cdtB : γ → V
  gate : V → V → V
  resconv : V → V
  skipconv : V → V

variable {γ : Type u} {V : Type v} {R : Type w} {k W : ℕ}

/-- Row `t` of the gated activation of a block in parallel mode: the causal
`initial_conv` (left zero padding `(k-1)*d`, trailing rows trimmed,
modules.py line 85) summed with the 1×1-projected conditioning row, gated. -/
def ResidualBlock.gateRow [AddCommMonoid V] [Zero γ] (b : ResidualBlock γ V k)
    (r : List V) (c : List γ) (t : ℕ) : V :=
  b.gate
    ((((List.finRange k).map (fun u =>
        b.tapsA u (zat r ((t : ℤ) - ((k - 1 - u.1 : ℕ) : ℤ) * (b.dilation : ℤ))))).sum)
      + b.cdtA (c.getD t 0))
    ((((List.finRange k).map (fun u =>
        b.tapsB u (zat r ((t : ℤ) - ((k - 1 - u.1 : ℕ) : ℤ) * (b.dilation : ℤ))))).sum)
      + b.cdtB (c.getD t 0))

/-- `ResidualBlock.forward` in parallel mode (modules.py lines 56–102,
`incremental=False`): returns the residual stream (`resconv` projection plus
identity skip) and the skip contribution, row by row.  Faithful for
well-formed blocks (`(k-1)*dilation ≥ 1`, as with the configured
`kernel_size=3` and dilations `2^(i mod cycle)`). -/
def ResidualBlock.forward [AddCommMonoid V] [Zero γ] (b : ResidualBlock γ V k)
    (r : List V) (c : List γ) : List V × List V :=
  (List.ofFn (fun t : Fin r.length => b.resconv (b.gateRow r c t.1) + r.get t),
   List.ofFn (fun t : Fin r.length => b.skipconv (b.gateRow r c t.1)))

/-- `ResidualBlock.forward` in streaming mode (modules.py lines 79–96,
`incremental=True`): the input is the causal window of height `(k-1)*d + 1`
assembled by the cache, height padding is zero, so `initial_conv` emits a
single row `Σ_u tap_u (window[u*d])`; the residual output adds the *last*
row of the window (line 96). -/
def ResidualBlock.forwardInc [AddCommMonoid V] [Zero γ] (b : ResidualBlock γ V k)
    (w : List V) (cr : γ) : V × V :=
  let g := b.gate
    ((((List.finRange k).map (fun u =>
        b.tapsA u (zat w ((u.1 * b.dilation : ℕ) : ℤ))))).sum + b.cdtA cr)
    ((((List.finRange k).map (fun u =>
        b.tapsB u (zat w ((u.1 * b.dilation : ℕ) : ℤ))))).sum + b.cdtB cr)
  (b.resconv g + w.getD (w.length - 1) 0, b.skipconv g)

/-- Parameters of one `ResidualStack` (one flow, modules.py lines 117–141).
`fc0`/`fc1` are the two kernel rows of the strictly causal `first_conv`
(kernel `(2,1)`, height padding 2, trailing trim `[:-3]`, so row `t` of its
output is `fc0 z[t-2] + fc1 z[t-1]`); `tanhRes` the following `tanh`;
`postMean`/`postLogvar` the `last_convs` chain followed by the channel
split into mean and logvar. -/
structure ResidualStack (γ : Type u) (V : Type v) (R : Type w) (W k : ℕ) where
  fc0 : Row R W → V
  fc1 : Row R W → V
  tanhRes : V → V
  stack : List (ResidualBlock γ V k)
  postMean : V → Row R W
  postLogvar : V → Row R W

/-- The input stream of the block stack: `tanh(first_conv(x)[:,:,:-3,:])`
(modules.py line 162).  Row `t` depends only on `z[t-2]` and `z[t-1]`
(strict causality). -/
def ResidualStack.res0 [AddCommMonoid V] [LinearOrderedCommRing R] (S : ResidualStack γ V R W k)
    (z : List (Row R W)) : List V :=
  List.ofFn (fun t : Fin z.length =>
    S.tanhRes (S.fc0 (zat z ((t.1 : ℤ) - 2)) + S.fc1 (zat z ((t.1 : ℤ) - 1))))

/-- One step of the parallel block chain (the loop body of modules.py lines
165–167 together with the skip accumulation of line 169): feed the residual
stream through the block and add its skip contribution to the running
sum. -/
def chainF [AddCommMonoid V] [Zero γ] (c : List γ) (st : List V × List V)
    (b : ResidualBlock γ V k) : List V × List V :=
  let p := b.forward st.1 c
  (p.1, List.zipWith (· + ·) st.2 p.2)

/-- `ResidualStack.forward` (modules.py lines 143–171): run the blocks in
sequence on the residual stream, sum the skip contributions, apply the
output projections and split into `(mean, logvar)` rows. -/
def ResidualStack.forward [AddCommMonoid V] [Zero γ] [LinearOrderedCommRing R] (S : ResidualStack γ V R W k)
    (z : List (Row R W)) (c : List γ) : List (Row R W × Row R W) :=
  let fin := S.stack.foldl (chainF c) (S.res0 z, List.replicate z.length (0 : V))
  fin.2.map (fun v => (S.postMean v, S.postLogvar v))

/-! ### `WaveFlow.forward` (modules.py lines 274–328) -/

/-- The affine transform of one flow applied to a grid:
`exp(logvar) * y + mean`, elementwise (modules.py line 323). -/
def affineApply {R : Type*} [LinearOrderedCommRing R] (e : R → R) {W : ℕ}
    (m l y : List (Row R W)) : List (Row R W) :=
  zipWith3 (fun mr lr yr => rowExp e lr * yr + mr) m l y

/-- Sequential application of a list of `(mean, logvar)` affine transforms. -/
def affineFold {R : Type*} [LinearOrderedCommRing R] (e : R → R) {W : ℕ}
    (ps : List (List (Row R W) × List (Row R W)))
    (y : List (Row R W)) : List (Row R W) :=
  ps.foldl (fun yy p => affineApply e p.1 p.2 yy) y

/-- Per-flow record of a forward pass: the flow's input grid, the
`(mean, logvar)` pair actually used (logvar already clamped, modules.py
line 313), the transformed signal after the affine update (line 323) but
before the inter-flow permutation (line 325), and the running composed
`(global_mean, global_logvar)` after this flow (lines 315–321). -/
structure FlowRec (R : Type w) (W : ℕ) where
  xIn : List (Row R W)
  mean : List (Row R W)
  logvar : List (Row R W)
  xPre : List (Row R W)
  gm : List (Row R W)
  gl : List (Row R W)

/-- Default record (used only as a `getD` fallback). -/
def FlowRec.dflt (R : Type w) (W : ℕ) : FlowRec R W := ⟨[], [], [], [], [], []⟩

/-- The body of one iteration of the flow loop of `WaveFlow.forward`
(modules.py lines 311–323): `(mean, logvar)` from the flow's parallel
evaluation (`torch.split(flow(x, c), 1, 1)`), `logvar` clamped to at most
10, the running pair composed by
`global_mean = global_mean * exp(logvar) + mean`,
`global_logvar = global_logvar + logvar` (identity composition when the
running pair is still `None`), and the signal updated by
`x = exp(logvar) * x + mean`. -/
def WaveFlow.flowStep [AddCommMonoid V] [Zero γ] [LinearOrderedCommRing R] (e : R → R)
    (f : ResidualStack γ V R W k) (x : List (Row R W)) (c : List γ)
    (acc : Option (List (Row R W) × List (Row R W))) : FlowRec R W :=
  let ml := f.forward x c
  let mean := ml.map Prod.fst
  let logvar := (ml.map Prod.snd).map clampRow
  let gacc := match acc with
    | some (gm, gl) =>
      (zipWith3 (fun g lr mr => g * rowExp e lr + mr) gm logvar mean,
       List.zipWith (· + ·) gl logvar)
    | none => (mean, logvar)
  ⟨x, mean, logvar, affineApply e mean logvar x, gacc.1, gacc.2⟩

/-- The flow loop of `WaveFlow.forward` (modules.py lines 307–326), started
at flow index `i` with running pair `acc` (`None` before the first flow);
also returns the per-flow trace.  After each flow, `x` and `c` are permuted
by `forward_flip i` (lines 325–326). -/
def WaveFlow.forwardFlows [AddCommMonoid V] [Zero γ] [LinearOrderedCommRing R] (e : R → R) :
    List (ResidualStack γ V R W k) → ℕ → List (Row R W) → List γ →
    Option (List (Row R W) × List (Row R W)) →
    (List (Row R W) × Option (List (Row R W) × List (Row R W)) × List (FlowRec R W))
  | [], _, x, _, acc => (x, acc, [])
  | f :: rest, i, x, c, acc =>
    let fr := WaveFlow.flowStep e f x c acc
    let r := WaveFlow.forwardFlows e rest (i + 1) (forward_flip i fr.xPre)
        (forward_flip i c) (some (fr.gm, fr.gl))
    (r.1, r.2.1, fr :: r.2.2)

/-- `WaveFlow.forward` with `squeezed=False` (modules.py lines 274–328):
squeeze signal and conditioning into grid form, then run the flow loop;
returns the transformed grid and the composed `(global_mean,
global_logvar)` (`none` only for a model with no flows). -/
def WaveFlow.forward {γ0 : Type u} {V : Type v} {R : Type w} {k : ℕ}
    [AddCommMonoid V] [Zero γ0] [LinearOrderedCommRing R]
    (e : R → R) (h W : ℕ) (flows : List (ResidualStack (Fin W → γ0) V R W k))
    (xraw : List R) (craw : List γ0) :
    List (Row R W) × Option (List (Row R W) × List (Row R W)) :=
  let r := WaveFlow.forwardFlows e flows 0 (squeeze h W xraw) (squeeze h W craw) none
  (r.1, r.2.1)

/-! ### Naive inverse pass (`WaveFlow.synthesize`, modules.py lines 341–382) -/

/-- One step of the naive inverse loop (modules.py lines 371–377): evaluate
the flow's parallel coupling network on the causal prefix `z[:, :, :step+1]`,
`c[:, :, :step+1]`, take `mean`/`logvar` at the last computed row (`-1`, i.e.
row `step`), and update `z[step] = (z[step] - mean) * exp(-logvar)`.
Note: no clamping of `logvar` here, unlike the forward pass. -/
def WaveFlow.naiveStep [AddCommMonoid V] [Zero γ] [LinearOrderedCommRing R] (e : R → R)
    (S : ResidualStack γ V R W k) (c : List γ) (z : List (Row R W)) (step : ℕ) :
    List (Row R W) :=
  let ml := S.forward (z.take (step + 1)) (c.take (step + 1))
  let p := ml.getD (ml.length - 1) 0
  z.set step ((z.getD step 0 - p.1) * rowExp e (-p.2))

/-- The inner loop of `synthesize` for one flow: `for step in range(hp.h)`
(modules.py line 371). -/
def WaveFlow.naiveLoop [AddCommMonoid V] [Zero γ] [LinearOrderedCommRing R] (e : R → R)
    (S : ResidualStack γ V R W k) (c : List γ) (hSteps : ℕ) (z : List (Row R W)) :
    List (Row R W) :=
  (List.range hSteps).foldl (WaveFlow.naiveStep e S c) z

/-- `WaveFlow.synthesize` (modules.py lines 341–382): squeeze the
conditioning, scale the grid-shaped base noise by the temperature, then for
each flow of `self.flows[::-1]` (enumeration index `i`) permute `z` and `c`
by `synth_flip i` and run the naive per-step inversion; finally un-squeeze.
The base noise `torch.randn(...)` is an explicit input. -/
def WaveFlow.synthesize {γ0 : Type u} {V : Type v} {R : Type w} {k : ℕ}
    [AddCommMonoid V] [Zero γ0] [LinearOrderedCommRing R]
    (e : R → R) (h W : ℕ) (flows : List (ResidualStack (Fin W → γ0) V R W k))
    (craw : List γ0) (temp : R) (noise : List (Row R W)) : List R :=
  let c := squeeze h W craw
  let z := noise.map (fun r => fun w => r w * temp)
  let fin := (flows.reverse.enum).foldl
    (fun (st : List (Row R W) × List (Fin W → γ0)) p =>
      let z' := synth_flip p.1 st.1
      let c' := synth_flip p.1 st.2
      (WaveFlow.naiveLoop e p.2 c' h z', c'))
    (z, c)
  unsqueeze fin.1

/-! ### Cached inverse pass (modules.py lines 173–238, 385–425)

Modelled from the spec: the class `CircularTensor` (imported from
`waveflow/fast_utils.py`) is not part of the provided sources.  Spec §4.2
describes it as a fixed-size ring buffer with a write cursor: `push`
(`set_current`) writes at the cursor and advances it modulo the buffer
length, and reading (calling the object) returns the contents in true
temporal order, oldest to newest, the just-pushed element last. -/

/-- Modelled from the spec: `CircularTensor` (fast_utils.py, not under the
provided sources) — a ring buffer over the height axis plus a write
cursor. -/
structure CircularTensor (V : Type v) where
  tensor : List V
  cursor : ℕ

/-- Modelled from the spec: `set_current` writes the new row at the cursor
and advances the cursor modulo the buffer length. -/
def CircularTensor.push (ct : CircularTensor V) (v : V) : CircularTensor V :=
  ⟨ct.tensor.set ct.cursor v, (ct.cursor + 1) % ct.tensor.length⟩

/-- Modelled from the spec: reading the buffer returns its contents in true
temporal order (oldest first); the cursor points at the oldest entry, which
is the next one to be overwritten. -/
def CircularTensor.window (ct : CircularTensor V) : List V :=
  ct.tensor.drop ct.cursor ++ ct.tensor.take ct.cursor

/-- `self.cache[i].tensor.zero_()` (modules.py line 209): zero the buffer
contents in place; the write cursor is untouched. -/
def CircularTensor.zeroed [Zero V] (ct : CircularTensor V) : CircularTensor V :=
  ⟨ct.tensor.map (fun _ => 0), ct.cursor⟩

/-- The cursor stays inside the (nonempty) buffer. -/
def CircularTensor.Valid (ct : CircularTensor V) : Prop :=
  ct.cursor < ct.tensor.length

/-- The per-block loop body of `arTransform` (modules.py lines 223–227):
push the newest residual row into block `i`'s cache, read back the causal
window, run the block in streaming mode, and accumulate the skip rows;
returns the summed skip row and the updated caches.  (The skip rows are
summed in a commutative monoid, so the association order is immaterial.) -/
def blockFoldAR [AddCommMonoid V] [Zero γ] :
    List (ResidualBlock γ V k) → List (CircularTensor V) → V → γ →
    V × List (CircularTensor V)
  | [], _, _, _ => (0, [])
  | b :: bs, caches, res, cr =>
    let ct := (caches.headD ⟨[], 0⟩).push res
    let win := ct.window
    let p := b.forwardInc win cr
    let rest := blockFoldAR bs caches.tail p.1 cr
    (p.2 + rest.1, ct :: rest.2)

/-- One step of `arTransform`'s loop (modules.py lines 213–236): take the
two-row causal slice `z[:, :, step:step+2]` of the padded signal, apply the
(streaming-padded) `first_conv` and `tanh`, run the blocks against their
caches with conditioning row `step`, project to `(mean, logvar)` and update
`z[step+2] = (z[step+2] - mean) * exp(-logvar)`. -/
def ResidualStack.arStep [AddCommMonoid V] [Zero γ] [LinearOrderedCommRing R] (e : R → R)
    (S : ResidualStack γ V R W k) (c : List γ)
    (st : List (Row R W) × List (CircularTensor V)) (step : ℕ) :
    List (Row R W) × List (CircularTensor V) :=
  let z := st.1
  let r0 := S.tanhRes (S.fc0 (z.getD step 0) + S.fc1 (z.getD (step + 1) 0))
  let bl := blockFoldAR S.stack st.2 r0 (c.getD step 0)
  let mean := S.postMean bl.1
  let logvar := S.postLogvar bl.1
  (z.set (step + 2) ((z.getD (step + 2) 0 - mean) * rowExp e (fun w => -(logvar w))),
   bl.2)

/-- `ResidualStack.arTransform` (modules.py lines 173–238).  On first use
(`cache is None`) one zeroed buffer of height `(kernel_size-1)*dilation + 1`
is allocated per block (lines 199–205; `first_conv`'s height padding is
switched to the streaming mode modelled by `arStep`); on a resumed synthesis
the existing buffers are zeroed in place (`tensor.zero_()`, line 209) and
the cursors keep their values.  The signal is padded with two zero rows at
the top (line 211), the step loop runs `hp.h` times, and the padding rows
are dropped from the result (line 238). -/
def ResidualStack.arTransform [AddCommMonoid V] [Zero γ] [LinearOrderedCommRing R] (e : R → R)
    (S : ResidualStack γ V R W k) (hSteps : ℕ)
    (cache : Option (List (CircularTensor V)))
    (z : List (Row R W)) (c : List γ) :
    List (Row R W) × List (CircularTensor V) :=
  let caches := match cache with
    | none => S.stack.map
        (fun b => (⟨List.replicate ((k - 1) * b.dilation + 1) (0 : V), 0⟩ :
          CircularTensor V))
    | some cs => cs.map CircularTensor.zeroed
  let zp := List.replicate 2 (0 : Row R W) ++ z
  let fin := (List.range hSteps).foldl (S.arStep e c) (zp, caches)
  (fin.1.drop 2, fin.2)

/-- The reversed-flow loop of `synthesize_fast` (modules.py lines 417–421):
at enumeration index `i`, permute `z` and `c` by `synth_flip i` and invert
the flow by its `arTransform` against its cache state, collecting the
updated cache states. -/
def WaveFlow.fastFold {γ0 : Type u} {V : Type v} {R : Type w} {k : ℕ}
    [AddCommMonoid V] [Zero γ0] [LinearOrderedCommRing R] (e : R → R) (hSteps : ℕ)
    (ps : List (ℕ × (ResidualStack (Fin W → γ0) V R W k ×
      Option (List (CircularTensor V)))))
    (st : List (Row R W) × List (Fin W → γ0) × List (List (CircularTensor V))) :
    List (Row R W) × List (Fin W → γ0) × List (List (CircularTensor V)) :=
  ps.foldl
    (fun (st : List (Row R W) × List (Fin W → γ0) × List (List (CircularTensor V))) p =>
      let z' := synth_flip p.1 st.1
      let c' := synth_flip p.1 st.2.1
      let r := p.2.1.arTransform e hSteps p.2.2 z' c'
      (r.1, c', r.2 :: st.2.2))
    st

/-- `WaveFlow.synthesize_fast` (modules.py lines 385–425): identical to
`synthesize` except that each flow is inverted by its `arTransform`; the
per-flow cache states are threaded explicitly (they live on the flow modules
in the source) and the updated states are returned in original flow
order. -/
def WaveFlow.synthesize_fast {γ0 : Type u} {V : Type v} {R : Type w} {k : ℕ}
    [AddCommMonoid V] [Zero γ0] [LinearOrderedCommRing R] (e : R → R) (h W : ℕ)
    (flows : List (ResidualStack (Fin W → γ0) V R W k))
    (states : List (Option (List (CircularTensor V))))
    (craw : List γ0) (temp : R) (noise : List (Row R W)) :
    List R × List (List (CircularTensor V)) :=
  let c := squeeze h W craw
  let z := noise.map (fun r => fun w => r w * temp)
  let fin := WaveFlow.fastFold e h ((flows.zip states).reverse.enum) (z, c, [])
  (unsqueeze fin.1, fin.2.2)

/-! ### Concrete instances used in counterexamples and witnesses -/

/-- The identity-like abstract exponential used for concrete evaluations:
constant 1 (so `exp 0 = 1` agrees with the real exponential at the only
point where these instances evaluate it). -/
def oneExp : ℤ → ℤ := fun _ => 1

/-- A stack with no residual blocks and zero output projections: the
evaluation of a `ResidualStack` whose convolution weights are all zero
(`n_layer = 0`); its `(mean, logvar)` output is identically `(0, 0)`. -/
def zeroStack : ResidualStack (Fin 1 → ℤ) ℤ ℤ 1 1 :=
  ⟨fun _ => 0, fun _ => 0, fun v => v, [], fun _ => 0, fun _ => 0⟩

/-- A stack whose raw logvar output is the constant 42 (> 10), to exercise
the clamp. -/
def bigLvStack : ResidualStack (Fin 1 → ℤ) ℤ ℤ 1 1 :=
  ⟨fun _ => 0, fun _ => 0, fun v => v, [], fun _ => 0, fun _ => fun _ => 42⟩

/-- Concrete 2-row signal grid `[1, 0]` (height 2, width 1). -/
def xC4 : List (Row ℤ 1) := [fun _ => 1, fun _ => 0]

/-- Concrete 2-row zero conditioning grid. -/
def cC4 : List (Fin 1 → ℤ) := [fun _ => 0, fun _ => 0]

/-- Forward trace of two zero flows on `xC4` (used to test the running
composition invariant). -/
def traceC4 : List (FlowRec ℤ 1) :=
  (WaveFlow.forwardFlows oneExp [zeroStack, zeroStack] 0 xC4 cC4 none).2.2

/-- Concrete base noise `[1, 0, 0, 0]` in grid form (height 4, width 1). -/
def noiseC2 : List (Row ℤ 1) := [fun _ => 1, fun _ => 0, fun _ => 0, fun _ => 0]

/-- Concrete zero conditioning signal of length 4 (one feature channel). -/
def crawC2 : List ℤ := [0, 0, 0, 0]

/-- The naive-inverse output of a fresh one-flow model with zero weights on
`noiseC2` with temperature 1. -/
def synthC2 : List ℤ :=
  WaveFlow.synthesize oneExp 4 1 [zeroStack] crawC2 1 noiseC2

/-- The forward transform of that output under the same model and
conditioning. -/
def fwdC2 : List (Row ℤ 1) :=
  (WaveFlow.forward oneExp 4 1 [zeroStack] synthC2 crawC2).1

/-- Forward trace of a single flow whose raw logvar is 42 (for the clamp
witness). -/
def traceC9 : List (FlowRec ℤ 1) :=
  (WaveFlow.forwardFlows id [bigLvStack] 0 [fun _ => 1] [fun _ => 0] none).2.2

/-- The two buffers are literally equal, or both have valid cursors and the
same window: the invariant along which the streaming computation cannot
distinguish two caches. -/
def ctEquiv {V : Type v} (a b : CircularTensor V) : Prop :=
  a = b ∨ (a.Valid ∧ b.Valid ∧ a.window = b.window)

/-- A buffer is well-shaped for a block: its height is the block's causal
window `(kernel_size-1)*dilation + 1` (modules.py lines 200–203) and its
write cursor is valid. -/
def cacheWF {γ : Type u} {V : Type v} {k : ℕ}
    (ct : CircularTensor V) (b : ResidualBlock γ V k) : Prop :=
  ct.tensor.length = (k - 1) * b.dilation + 1 ∧ ct.Valid

/-- A cache list is well-shaped for a stack: one well-shaped buffer per
block. -/
def StateWF {γ : Type u} {V : Type v} {R : Type w} {W k : ℕ}
    (S : ResidualStack γ V R W k) (cs : List (CircularTensor V)) : Prop :=
  List.Forall₂ cacheWF cs S.stack

/-- Invariant of `arTransform`'s step loop relating the block caches to the
parallel computation: after `t` completed steps against the residual stream
`inp`, each block's buffer holds, in temporal order, the last
`tensor.length` rows of (the zero-padded) `inp` ending at row `t - 1`, and
the invariant recurses down the block chain along the parallel residual
streams `(b.forward inp c).1`. -/
def windowsMatch {γ : Type u} {V : Type v} {k : ℕ} [AddCommMonoid V] [Zero γ]
    (c : List γ) (t : ℕ) :
    List (ResidualBlock γ V k) → List (CircularTensor V) → List V → Prop
  | [], [], _ => True
  | b :: bs, ct :: cts, inp =>
      cacheWF ct b ∧
      (∀ j, j < ct.tensor.length →
        ct.window.getD j 0 = zat inp ((t : ℤ) - (ct.tensor.length : ℤ) + (j : ℤ))) ∧
      windowsMatch c t bs cts (b.forward inp c).1
  | _, _, _ => False

/-- One residual block with kernel height 2, dilation 2 and all-zero maps
(cache height 3), used to exhibit the cursor behaviour of the cache
reset. -/
def cexBlock : ResidualBlock (Fin 1 → ℤ) ℤ 2 :=
  ⟨2, fun _ _ => 0, fun _ _ => 0, fun _ => 0, fun _ => 0, fun _ _ => 0,
   fun _ => 0, fun _ => 0⟩

/-- A one-block stack (kernel height 2) with all-zero maps. -/
def cexStack : ResidualStack (Fin 1 → ℤ) ℤ ℤ 1 2 :=
  ⟨fun _ => 0, fun _ => 0, fun v => v, [cexBlock], fun _ => 0, fun _ => 0⟩

/-- The per-flow cache states left behind by one `synthesize_fast` call on
the one-block model (grid height 4, cache height 3, so the write cursor
ends at `4 mod 3 = 1`). -/
def statesC6 : List (List (CircularTensor ℤ)) :=
  (WaveFlow.synthesize_fast oneExp 4 1 [cexStack] [none] crawC2 1 noiseC2).2

/-! # Theorems -/

theorem length_half_flip {α : Type*} (x : List α) :
    (half_flip x).length = x.length := by
  simp [half_flip]
  omega

theorem length_full_flip {α : Type*} (x : List α) :
    (full_flip x).length = x.length := by
  simp [full_flip]

/-- On a list of even positive length, `torch.split` with size `len/2`
yields exactly the two halves. -/
theorem torchSplit_half_even {α : Type*} (x : List α)
    (he : x.length % 2 = 0) (hp : 0 < x.length) :
    torchSplit (x.length / 2) x
      = some [x.take (x.length / 2), (x.drop (x.length / 2)).take (x.length / 2)] := by
  have h2 : x.length / 2 ≠ 0 := by omega
  unfold torchSplit
  rw [if_neg (by simp [h2])]
  have hcount : max ((x.length + x.length / 2 - 1) / (x.length / 2)) 1 = 2 := by
    have : (x.length + x.length / 2 - 1) / (x.length / 2) = 2 := by
      have hx : x.length = 2 * (x.length / 2) := by omega
      set s := x.length / 2 with hs
      have h1 : 0 < s := by omega
      have h3 : x.length + s - 1 = 3 * s - 1 := by omega
      rw [h3]
      refine Nat.div_eq_of_lt_le (by omega) (by omega)
    omega
  rw [hcount]
  simp [List.range_succ]

theorem half_flip_run_even {α : Type*} (x : List α)
    (he : x.length % 2 = 0) (hp : 0 < x.length) :
    half_flip_run x = some (half_flip x) := by
  unfold half_flip_run half_flip
  rw [torchSplit_half_even x he hp]
  have hd : (x.drop (x.length / 2)).take (x.length / 2) = x.drop (x.length / 2) := by
    apply List.take_of_length_le
    simp
    omega
  rw [hd]

/-- For odd height, the split yields three chunks (or errors when the height
is 1), so the 2-unpacking fails. -/
theorem half_flip_run_odd {α : Type*} (x : List α)
    (ho : x.length % 2 = 1) : half_flip_run x = none := by
  unfold half_flip_run
  by_cases h1 : x.length = 1
  · -- length 1: split size 0 on a nonempty dimension errors
    have : x.length / 2 = 0 := by omega
    rw [this]
    unfold torchSplit
    rw [if_pos (by omega)]
  · -- length ≥ 3 odd: three chunks
    have h2 : 2 ≤ x.length := by omega
    have hs : x.length / 2 ≠ 0 := by omega
    unfold torchSplit
    rw [if_neg (by simp [hs])]
    have hcount : max ((x.length + x.length / 2 - 1) / (x.length / 2)) 1 = 3 := by
      set s := x.length / 2 with hsdef
      have hx : x.length = 2 * s + 1 := by omega
      have h1 : 0 < s := by omega
      have : x.length + s - 1 = 3 * s := by omega
      rw [this, Nat.mul_div_cancel _ h1]
      omega
    rw [hcount]
    simp [List.range_succ]

/-- The empty tensor: split size `0` on a size-0 dimension returns a single
chunk, so the 2-unpacking fails as well. -/
theorem half_flip_run_nil {α : Type*} : half_flip_run ([] : List α) = none := by
  unfold half_flip_run torchSplit
  simp

theorem full_flip_full_flip {α : Type*} (x : List α) :
    full_flip (full_flip x) = x := by
  simp [full_flip]

theorem half_flip_append {α : Type*} (a b : List α) (h : a.length = b.length) :
    half_flip (a ++ b) = a.reverse ++ b.reverse := by
  unfold half_flip
  have hl : (a ++ b).length / 2 = a.length := by
    simp [← h]
    omega
  rw [hl, List.take_left, List.drop_left]

theorem half_flip_half_flip_even {α : Type*} (x : List α)
    (he : x.length % 2 = 0) : half_flip (half_flip x) = x := by
  obtain ⟨a, b, hx, hab⟩ : ∃ a b : List α, x = a ++ b ∧ a.length = b.length :=
    ⟨x.take (x.length / 2), x.drop (x.length / 2), (x.take_append_drop _).symm,
      by simp; omega⟩
  subst hx
  rw [half_flip_append a b hab,
    half_flip_append a.reverse b.reverse (by simp [hab])]
  simp

theorem length_squeeze {α : Type*} [Zero α] (h W : ℕ) (raw : List α) :
    (squeeze h W raw).length = h := by
  simp [squeeze]

theorem sum_map_range_eq (f : ℕ → ℕ) (n : ℕ) :
    ((List.range n).map f).sum = ∑ i in Finset.range n, f i := by
  induction n with
  | zero => simp
  | succ m ih => simp [List.range_succ, Finset.sum_range_succ, ih]

theorem half_flip_full_flip_ne :
    half_flip (full_flip ([1, 2, 3, 4] : List ℚ)) ≠ [1, 2, 3, 4] := by
  decide

theorem full_flip_half_flip_ne :
    full_flip (half_flip ([1, 2, 3, 4] : List ℚ)) ≠ [1, 2, 3, 4] := by
  decide

/-- If `half_flip` runs successfully, the input height was even and positive. -/
theorem half_flip_run_some {α : Type*} {x y : List α}
    (h : half_flip_run x = some y) : x.length % 2 = 0 ∧ 0 < x.length := by
  rcases Nat.mod_two_eq_zero_or_one x.length with he | ho
  · refine ⟨he, ?_⟩
    rcases Nat.eq_zero_or_pos x.length with h0 | hp
    · rw [List.length_eq_zero] at h0
      subst h0
      rw [half_flip_run_nil] at h
      exact absurd h (by simp)
    · exact hp
  · rw [half_flip_run_odd x ho] at h
    exact absurd h (by simp)

/-- Claim C7: `full_flip` and `half_flip` are involutions: `full_flip` maps
every signal back to itself when applied twice, and `half_flip` (whose exact
run-time semantics, including the `torch.split` unpacking, is
`half_flip_run`) maps its output back to the original input wherever it
succeeds — exactly, as a pure index permutation of the time axis. -/
theorem claim_C7 :
    (∀ x : List ℚ, full_flip (full_flip x) = x) ∧
    (∀ x y : List ℚ, half_flip_run x = some y → half_flip_run y = some x) := by
  refine ⟨full_flip_full_flip, ?_⟩
  intro x y hxy
  obtain ⟨he, hp⟩ := half_flip_run_some hxy
  rw [half_flip_run_even x he hp] at hxy
  have hy : y = half_flip x := by
    exact ((Option.some.injEq _ _).mp hxy.symm)
  subst hy
  have hel : (half_flip x).length % 2 = 0 := by rw [length_half_flip]; exact he
  have hpl : 0 < (half_flip x).length := by rw [length_half_flip]; exact hp
  rw [half_flip_run_even _ hel hpl, half_flip_half_flip_even x he]

/-- Witness for C7 at a concrete input. -/
theorem claim_C7_witness :
    half_flip_run ([1, 2, 3, 4] : List ℚ) = some [2, 1, 4, 3] ∧
    half_flip_run ([2, 1, 4, 3] : List ℚ) = some [1, 2, 3, 4] :=
  ⟨by decide, claim_C7.2 [1, 2, 3, 4] [2, 1, 4, 3] (by decide)⟩

/-- Claim C10 counterexample: the empty tensor has even height (0), yet the
operation fails on it — `torch.split` with split size 0 on a size-0 dimension
returns a single chunk and the two-element unpacking raises. -/
theorem claim_C10_cex :
    ([] : List ℚ).length % 2 = 0 ∧ half_flip_run ([] : List ℚ) = none :=
  ⟨rfl, half_flip_run_nil⟩

/-- Claim C10 (amended): `half_flip` is defined exactly on tensors of even
positive height: there it returns the tensor of the same height made of the
two independently reversed halves, and on every tensor of odd height the
operation fails (the split into exactly two equal halves is impossible), as
it also does on the empty tensor. -/
theorem claim_C10 (α : Type*) :
    (∀ x : List α, x.length % 2 = 0 → 0 < x.length →
      half_flip_run x = some (half_flip x) ∧ (half_flip x).length = x.length) ∧
    (∀ x : List α, x.length % 2 = 1 → half_flip_run x = none) :=
  ⟨fun x he hp => ⟨half_flip_run_even x he hp, length_half_flip x⟩,
   fun x ho => half_flip_run_odd x ho⟩

/-- Witness for C10 at concrete even and odd inputs. -/
theorem claim_C10_witness :
    (half_flip_run ([1, 2, 3, 4] : List ℚ) = some (half_flip [1, 2, 3, 4]) ∧
      (half_flip ([1, 2, 3, 4] : List ℚ)).length = ([1, 2, 3, 4] : List ℚ).length) ∧
    half_flip_run ([1, 2, 3] : List ℚ) = none :=
  ⟨(claim_C10 ℚ).1 [1, 2, 3, 4] (by decide) (by decide),
   (claim_C10 ℚ).2 [1, 2, 3] (by decide)⟩

/-- Claim C8: the computed receptive field equals
`(kernel_size-1) * Σ_{i<n_layer} 2^(i mod cycle_size) + 1`, layer `i`'s
dilation is `2^(i mod cycle_size)`, and for `kernel_size=3`, `cycle_size=10`,
`n_layer=20` the value is 4093. -/
theorem claim_C8 :
    (∀ k' cyc nl, receptive_field k' cyc nl
        = (k' - 1) * (∑ i in Finset.range nl, 2 ^ (i % cyc)) + 1) ∧
    (∀ nl cyc i (h : i < nl),
      (stack_dilations nl cyc).get ⟨i, by simpa [stack_dilations] using h⟩
        = 2 ^ (i % cyc)) ∧
    receptive_field 3 10 20 = 4093 := by
  refine ⟨fun k' cyc nl => ?_, fun nl cyc i h => ?_, by decide⟩
  · unfold receptive_field
    rw [sum_map_range_eq]
  · simp [stack_dilations]

/-- Witness for C8's dilation formula at layer 19 of the configured stack. -/
theorem claim_C8_witness :
    (stack_dilations 20 10).get ⟨19, by decide⟩ = 2 ^ (19 % 10) :=
  claim_C8.2.1 20 10 19 (by decide)

/-- Claim C5 counterexample: for a signal of length `L = 8` with squeeze
factor `h = 4`, the grid actually processed has `4 = h` rows, not
`L/h = 2` rows: the reshape to `(L/h, h)` is followed by `transpose(2, 3)`. -/
theorem claim_C5_cex :
    (squeeze 4 2 ([0, 1, 2, 3, 4, 5, 6, 7] : List ℚ)).length ≠ 8 / 4 := by
  decide

/-- Claim C5 (amended): with `squeezed=False` a 1-D signal of length
`L = h*W` is reshaped into a `(L/h, h)` grid and then transposed, so the 2-D
grid the flows actually process has time-axis (rows) extent `h` (the squeeze
factor) and width extent `W = L/h`, with entry `(i, j) = raw[j*h + i]`;
`synthesize` reshapes the conditioning with the same `squeeze`. -/
theorem claim_C5 {α : Type*} [Zero α] (h W : ℕ) (raw : List α)
    (_hlen : raw.length = h * W) :
    (squeeze h W raw).length = h ∧
    ∀ (i : Fin h) (j : Fin W),
      (squeeze h W raw).get ⟨i.1, by simp [squeeze]⟩ j
        = raw.getD (j.1 * h + i.1) 0 := by
  refine ⟨length_squeeze h W raw, fun i j => ?_⟩
  simp [squeeze, List.get_ofFn]

/-- Witness for C5 at `h = 4`, `W = 2`, `raw = [0,…,7]`: row 1, column 1
holds sample `1*4 + 1 = 5`. -/
theorem claim_C5_witness :
    (squeeze 4 2 ([0, 1, 2, 3, 4, 5, 6, 7] : List ℚ)).length = 4 ∧
    (squeeze 4 2 ([0, 1, 2, 3, 4, 5, 6, 7] : List ℚ)).get ⟨1, by decide⟩ ⟨1, by decide⟩
      = ([0, 1, 2, 3, 4, 5, 6, 7] : List ℚ).getD (1 * 4 + 1) 0 :=
  ⟨(claim_C5 4 2 _ (by decide)).1,
   (claim_C5 4 2 _ (by decide)).2 ⟨1, by decide⟩ ⟨1, by decide⟩⟩

/-- Claim C3 counterexample: for a model with 8 flows, at inverse iteration
`i = 4` (which inverts flow `8-1-4 = 3`) `synthesize` applies a half-reversal
(`i > 4` is false) although `forward` applied a full reversal after flow 3
(`3 < 4`), so the forward permutation is not undone. -/
theorem claim_C3_cex :
    synth_flip 4 (forward_flip (8 - 1 - 4) ([1, 2, 3, 4] : List ℚ)) ≠ [1, 2, 3, 4] := by
  decide

/-- Claim C3 (amended): `forward` applies a full reversal after each of the
first four flows and a half-reversal after every later flow, and the inverse
pass applies a half-reversal at its first five iterations and a full reversal
afterwards; iterating flows in reverse order, this undoes exactly the
permutation the forward pass applied after the flow being inverted if and
only if the model has exactly 9 flows (or trivially none): for every other
flow count some flow gets the wrong permutation. -/
theorem claim_C3 (n : ℕ) :
    (∀ i, i < n → ∀ x : List ℚ, x.length % 2 = 0 →
      synth_flip i (forward_flip (n - 1 - i) x) = x) ↔ (n = 0 ∨ n = 9) := by
  constructor
  · intro h
    by_contra hc
    push_neg at hc
    obtain ⟨hn0, hn9⟩ := hc
    by_cases h5 : n ≤ 5
    · have := h (n - 1) (by omega) [1, 2, 3, 4] (by decide)
      rw [show n - 1 - (n - 1) = 0 from by omega] at this
      rw [forward_flip, if_pos (by omega), synth_flip, if_neg (by omega)] at this
      exact half_flip_full_flip_ne this
    · by_cases h8 : n ≤ 8
      · have := h 4 (by omega) [1, 2, 3, 4] (by decide)
        rw [forward_flip, if_pos (by omega), synth_flip, if_neg (by omega)] at this
        exact half_flip_full_flip_ne this
      · have := h 5 (by omega) [1, 2, 3, 4] (by decide)
        rw [forward_flip, if_neg (by omega), synth_flip, if_pos (by omega)] at this
        exact full_flip_half_flip_ne this
  · rintro (rfl | rfl)
    · intro i hi
      exact absurd hi (by omega)
    · intro i hi x hx
      by_cases h4 : i ≤ 4
      · rw [forward_flip, if_neg (by omega), synth_flip, if_neg (by omega)]
        exact half_flip_half_flip_even x hx
      · rw [forward_flip, if_pos (by omega), synth_flip, if_pos (by omega)]
        exact full_flip_full_flip x

/-- Witness for C3 with 9 flows at iteration 0 (flow 8). -/
theorem claim_C3_witness :
    synth_flip 0 (forward_flip (9 - 1 - 0) ([1, 2, 3, 4] : List ℚ)) = [1, 2, 3, 4] :=
  (claim_C3 9).mpr (Or.inr rfl) 0 (by decide) [1, 2, 3, 4] (by decide)

/-! ### List helper lemmas -/

theorem zipWith3_length {α β γ' δ : Type*} (f : α → β → γ' → δ)
    (as : List α) (bs : List β) (cs : List γ') :
    (zipWith3 f as bs cs).length = min as.length (min bs.length cs.length) := by
  induction as generalizing bs cs with
  | nil => cases bs <;> cases cs <;> simp [zipWith3]
  | cons a as ih =>
    cases bs with
    | nil => simp [zipWith3]
    | cons b bs =>
      cases cs with
      | nil => simp [zipWith3]
      | cons c cs =>
        simp only [zipWith3, List.length_cons, ih]
        omega

theorem get_zipWith3 {α β γ' δ : Type*} (f : α → β → γ' → δ)
    (as : List α) (bs : List β) (cs : List γ') (n : ℕ)
    (ha : n < as.length) (hb : n < bs.length) (hc : n < cs.length) :
    (zipWith3 f as bs cs).get ⟨n, by rw [zipWith3_length]; omega⟩
      = f (as.get ⟨n, ha⟩) (bs.get ⟨n, hb⟩) (cs.get ⟨n, hc⟩) := by
  induction as generalizing bs cs n with
  | nil => simp at ha
  | cons a as ih =>
    cases bs with
    | nil => simp at hb
    | cons b bs =>
      cases cs with
      | nil => simp at hc
      | cons c cs =>
        cases n with
        | zero => rfl
        | succ m =>
          exact ih bs cs m (Nat.lt_of_succ_lt_succ ha) (Nat.lt_of_succ_lt_succ hb)
            (Nat.lt_of_succ_lt_succ hc)

theorem get_zipWith {α β δ : Type*} (f : α → β → δ)
    (as : List α) (bs : List β) (n : ℕ) (ha : n < as.length) (hb : n < bs.length) :
    (List.zipWith f as bs).get ⟨n, by rw [List.length_zipWith]; omega⟩
      = f (as.get ⟨n, ha⟩) (bs.get ⟨n, hb⟩) := by
  induction as generalizing bs n with
  | nil => simp at ha
  | cons a as ih =>
    cases bs with
    | nil => simp at hb
    | cons b bs =>
      cases n with
      | zero => rfl
      | succ m =>
        exact ih bs m (Nat.lt_of_succ_lt_succ ha) (Nat.lt_of_succ_lt_succ hb)

theorem getD_mem {α : Type*} (l : List α) (n : ℕ) (d : α) (h : n < l.length) :
    l.getD n d ∈ l := by
  induction l generalizing n with
  | nil => simp at h
  | cons a l ih =>
    cases n with
    | zero => simp [List.getD]
    | succ m =>
      simp only [List.getD_cons_succ]
      exact List.mem_cons_of_mem _ (ih m (by simpa using h))

theorem length_forward_flip {α : Type*} (i : ℕ) (x : List α) :
    (forward_flip i x).length = x.length := by
  unfold forward_flip
  split
  · exact length_full_flip x
  · exact length_half_flip x

/-! ### Shape lemmas for the coupling network and the flow loop -/

variable {γ : Type u} {V : Type v} {R : Type w} {k W : ℕ}

theorem length_stack_forward [AddCommMonoid V] [Zero γ] [LinearOrderedCommRing R]
    (S : ResidualStack γ V R W k) (z : List (Row R W)) (c : List γ) :
    (S.forward z c).length = z.length := by
  unfold ResidualStack.forward
  have key : ∀ (bs : List (ResidualBlock γ V k)) (st : List V × List V),
      st.1.length = z.length → st.2.length = z.length →
      ((bs.foldl (chainF c) st).1.length = z.length ∧
       (bs.foldl (chainF c) st).2.length = z.length) := by
    intro bs
    induction bs with
    | nil => intro st h1 h2; exact ⟨h1, h2⟩
    | cons b bs ih =>
      intro st h1 h2
      simp only [List.foldl_cons]
      refine ih _ ?_ ?_
      · simp [chainF, ResidualBlock.forward, h1]
      · simp [chainF, ResidualBlock.forward, List.length_zipWith, h1, h2]
  have hr0 : (S.res0 z).length = z.length := by simp [ResidualStack.res0]
  have := key S.stack (S.res0 z, List.replicate z.length (0 : V)) hr0 (by simp)
  simp [this.2]

theorem length_flowStep_mean [AddCommMonoid V] [Zero γ] [LinearOrderedCommRing R] (e : R → R)
    (f : ResidualStack γ V R W k) (x : List (Row R W)) (c : List γ)
    (acc : Option (List (Row R W) × List (Row R W))) :
    (WaveFlow.flowStep e f x c acc).mean.length = x.length := by
  simp [WaveFlow.flowStep, length_stack_forward]

theorem length_flowStep_logvar [AddCommMonoid V] [Zero γ] [LinearOrderedCommRing R] (e : R → R)
    (f : ResidualStack γ V R W k) (x : List (Row R W)) (c : List γ)
    (acc : Option (List (Row R W) × List (Row R W))) :
    (WaveFlow.flowStep e f x c acc).logvar.length = x.length := by
  simp [WaveFlow.flowStep, length_stack_forward]

theorem length_affineApply {R : Type*} [LinearOrderedCommRing R] (e : R → R)
    {W : ℕ} (m l y : List (Row R W)) :
    (affineApply e m l y).length = min m.length (min l.length y.length) :=
  zipWith3_length _ m l y

theorem length_flowStep_xPre [AddCommMonoid V] [Zero γ] [LinearOrderedCommRing R] (e : R → R)
    (f : ResidualStack γ V R W k) (x : List (Row R W)) (c : List γ)
    (acc : Option (List (Row R W) × List (Row R W))) :
    (WaveFlow.flowStep e f x c acc).xPre.length = x.length := by
  have h : (WaveFlow.flowStep e f x c acc).xPre
      = affineApply e (WaveFlow.flowStep e f x c acc).mean
          (WaveFlow.flowStep e f x c acc).logvar x := rfl
  rw [h, length_affineApply, length_flowStep_mean, length_flowStep_logvar]
  omega

theorem flowStep_gm_none [AddCommMonoid V] [Zero γ] [LinearOrderedCommRing R] (e : R → R)
    (f : ResidualStack γ V R W k) (x : List (Row R W)) (c : List γ) :
    (WaveFlow.flowStep e f x c none).gm = (WaveFlow.flowStep e f x c none).mean ∧
    (WaveFlow.flowStep e f x c none).gl = (WaveFlow.flowStep e f x c none).logvar :=
  ⟨rfl, rfl⟩

theorem flowStep_gm_some [AddCommMonoid V] [Zero γ] [LinearOrderedCommRing R] (e : R → R)
    (f : ResidualStack γ V R W k) (x : List (Row R W)) (c : List γ)
    (g gl : List (Row R W)) :
    (WaveFlow.flowStep e f x c (some (g, gl))).gm
        = zipWith3 (fun gr lr mr => gr * rowExp e lr + mr) g
            (WaveFlow.flowStep e f x c (some (g, gl))).logvar
            (WaveFlow.flowStep e f x c (some (g, gl))).mean ∧
    (WaveFlow.flowStep e f x c (some (g, gl))).gl
        = List.zipWith (· + ·) gl (WaveFlow.flowStep e f x c (some (g, gl))).logvar :=
  ⟨rfl, rfl⟩

theorem length_flowStep_gm_some [AddCommMonoid V] [Zero γ] [LinearOrderedCommRing R] (e : R → R)
    (f : ResidualStack γ V R W k) (x : List (Row R W)) (c : List γ)
    (g gl : List (Row R W)) (hg : g.length = x.length) :
    (WaveFlow.flowStep e f x c (some (g, gl))).gm.length = x.length := by
  rw [(flowStep_gm_some e f x c g gl).1, zipWith3_length,
    length_flowStep_logvar, length_flowStep_mean, hg]
  omega

theorem length_flowStep_gl_some [AddCommMonoid V] [Zero γ] [LinearOrderedCommRing R] (e : R → R)
    (f : ResidualStack γ V R W k) (x : List (Row R W)) (c : List γ)
    (g gl : List (Row R W)) (hgl : gl.length = x.length) :
    (WaveFlow.flowStep e f x c (some (g, gl))).gl.length = x.length := by
  rw [(flowStep_gm_some e f x c g gl).2, List.length_zipWith,
    length_flowStep_logvar, hgl]
  omega

/-! ### Composition of affine flow transforms -/

theorem affine_row_compose {R : Type*} [LinearOrderedCommRing R] (e : R → R)
    (hexp : ∀ a b : R, e (a + b) = e a * e b)
    {W : ℕ} (m l g gl y : Row R W) :
    rowExp e l * (rowExp e gl * y + g) + m
      = rowExp e (gl + l) * y + (g * rowExp e l + m) := by
  funext w
  simp only [rowExp, Pi.add_apply, Pi.mul_apply]
  rw [hexp]
  ring

theorem affineApply_compose {R : Type*} [LinearOrderedCommRing R] (e : R → R)
    (hexp : ∀ a b : R, e (a + b) = e a * e b)
    {W : ℕ} (m l g gl y : List (Row R W)) (H : ℕ)
    (hm : m.length = H) (hl : l.length = H) (hg : g.length = H)
    (hgl : gl.length = H) (hy : y.length = H) :
    affineApply e m l (affineApply e g gl y)
      = affineApply e (zipWith3 (fun gr lr mr => gr * rowExp e lr + mr) g l m)
          (List.zipWith (· + ·) gl l) y := by
  apply List.ext_get
  · simp [affineApply, zipWith3_length, List.length_zipWith, hm, hl, hg, hgl, hy]
  · intro n h1 h2
    have hn : n < H := by
      simp only [affineApply, zipWith3_length] at h1
      omega
    rw [show (affineApply e m l (affineApply e g gl y)).get ⟨n, h1⟩
        = (fun mr lr yr => rowExp e lr * yr + mr) (m.get ⟨n, by omega⟩)
            (l.get ⟨n, by omega⟩) ((affineApply e g gl y).get
              ⟨n, by rw [length_affineApply]; omega⟩) from
      get_zipWith3 _ m l _ n (by omega) (by omega)
        (by rw [length_affineApply]; omega)]
    rw [show (affineApply e g gl y).get ⟨n, by rw [length_affineApply]; omega⟩
        = (fun mr lr yr => rowExp e lr * yr + mr) (g.get ⟨n, by omega⟩)
            (gl.get ⟨n, by omega⟩) (y.get ⟨n, by omega⟩) from
      get_zipWith3 _ g gl y n (by omega) (by omega) (by omega)]
    rw [show (affineApply e (zipWith3 (fun gr lr mr => gr * rowExp e lr + mr) g l m)
            (List.zipWith (· + ·) gl l) y).get ⟨n, h2⟩
        = (fun mr lr yr => rowExp e lr * yr + mr)
            ((zipWith3 (fun gr lr mr => gr * rowExp e lr + mr) g l m).get
              ⟨n, by rw [zipWith3_length]; omega⟩)
            ((List.zipWith (· + ·) gl l).get ⟨n, by rw [List.length_zipWith]; omega⟩)
            (y.get ⟨n, by omega⟩) from
      get_zipWith3 _ _ _ y n (by rw [zipWith3_length]; omega)
        (by rw [List.length_zipWith]; omega) (by omega)]
    rw [show (zipWith3 (fun gr lr mr => gr * rowExp e lr + mr) g l m).get
          ⟨n, by rw [zipWith3_length]; omega⟩
        = (fun gr lr mr => gr * rowExp e lr + mr) (g.get ⟨n, by omega⟩)
            (l.get ⟨n, by omega⟩) (m.get ⟨n, by omega⟩) from
      get_zipWith3 _ g l m n (by omega) (by omega) (by omega)]
    rw [show (List.zipWith (· + ·) gl l).get ⟨n, by rw [List.length_zipWith]; omega⟩
        = gl.get ⟨n, by omega⟩ + l.get ⟨n, by omega⟩ from
      get_zipWith _ gl l n (by omega) (by omega)]
    exact affine_row_compose e hexp _ _ _ _ _

theorem forwardFlows_trace_length [AddCommMonoid V] [Zero γ] [LinearOrderedCommRing R] (e : R → R)
    (flows : List (ResidualStack γ V R W k)) :
    ∀ (i : ℕ) (x : List (Row R W)) (c : List γ)
      (acc : Option (List (Row R W) × List (Row R W))),
      ((WaveFlow.forwardFlows e flows i x c acc).2.2).length = flows.length := by
  induction flows with
  | nil => intro i x c acc; simp [WaveFlow.forwardFlows]
  | cons f rest ih =>
    intro i x c acc
    simp only [WaveFlow.forwardFlows, List.length_cons, ih]

/-- The running `(global_mean, global_logvar)` pair composes the per-flow
affine transforms: starting from a pair `(g, gl)` of the input's shape, the
recorded pair after the `t`-th processed flow represents the sequential
application of that pair's affine map followed by the first `t+1` flows'
`(mean, logvar)` maps, on every grid of the same shape. -/
theorem forwardFlows_trace_compose [AddCommMonoid V] [Zero γ] [LinearOrderedCommRing R] (e : R → R)
    (hexp : ∀ a b : R, e (a + b) = e a * e b)
    (flows : List (ResidualStack γ V R W k)) :
    ∀ (i : ℕ) (x : List (Row R W)) (c : List γ) (g gl : List (Row R W)),
      g.length = x.length → gl.length = x.length →
      ∀ (t : ℕ)
        (ht : t < ((WaveFlow.forwardFlows e flows i x c (some (g, gl))).2.2).length)
        (y : List (Row R W)), y.length = x.length →
      affineFold e
          ((((WaveFlow.forwardFlows e flows i x c (some (g, gl))).2.2).take (t + 1)).map
            (fun r => (r.mean, r.logvar)))
          (affineApply e g gl y)
        = affineApply e
            (((WaveFlow.forwardFlows e flows i x c (some (g, gl))).2.2).get ⟨t, ht⟩).gm
            (((WaveFlow.forwardFlows e flows i x c (some (g, gl))).2.2).get ⟨t, ht⟩).gl
            y := by
  induction flows with
  | nil =>
    intro i x c g gl hg hgl t ht y hy
    simp [WaveFlow.forwardFlows] at ht
  | cons f rest ih =>
    intro i x c g gl hg hgl t ht y hy
    have hlm : (WaveFlow.flowStep e f x c (some (g, gl))).mean.length = x.length :=
      length_flowStep_mean e f x c _
    have hll : (WaveFlow.flowStep e f x c (some (g, gl))).logvar.length = x.length :=
      length_flowStep_logvar e f x c _
    have hgm : (WaveFlow.flowStep e f x c (some (g, gl))).gm.length = x.length :=
      length_flowStep_gm_some e f x c g gl hg
    have hgll : (WaveFlow.flowStep e f x c (some (g, gl))).gl.length = x.length :=
      length_flowStep_gl_some e f x c g gl hgl
    have hcomp : affineApply e (WaveFlow.flowStep e f x c (some (g, gl))).mean
          (WaveFlow.flowStep e f x c (some (g, gl))).logvar (affineApply e g gl y)
        = affineApply e (WaveFlow.flowStep e f x c (some (g, gl))).gm
            (WaveFlow.flowStep e f x c (some (g, gl))).gl y := by
      rw [(flowStep_gm_some e f x c g gl).1, (flowStep_gm_some e f x c g gl).2]
      exact affineApply_compose e hexp _ _ g gl y x.length hlm hll hg hgl hy
    cases t with
    | zero =>
      simp only [WaveFlow.forwardFlows, List.take_succ_cons, List.take_zero,
        List.map_cons, List.map_nil, List.get_cons_zero]
      simp only [affineFold, List.foldl_cons, List.foldl_nil]
      exact hcomp
    | succ s =>
      have hts : s < ((WaveFlow.forwardFlows e rest (i + 1)
          (forward_flip i (WaveFlow.flowStep e f x c (some (g, gl))).xPre)
          (forward_flip i c)
          (some ((WaveFlow.flowStep e f x c (some (g, gl))).gm,
                 (WaveFlow.flowStep e f x c (some (g, gl))).gl))).2.2).length := by
        have := ht
        simp only [WaveFlow.forwardFlows, List.length_cons] at this
        omega
      have hx1 : (forward_flip i (WaveFlow.flowStep e f x c (some (g, gl))).xPre).length
          = x.length := by
        rw [length_forward_flip, length_flowStep_xPre]
      have := ih (i + 1)
        (forward_flip i (WaveFlow.flowStep e f x c (some (g, gl))).xPre)
        (forward_flip i c)
        (WaveFlow.flowStep e f x c (some (g, gl))).gm
        (WaveFlow.flowStep e f x c (some (g, gl))).gl
        (by rw [hgm, hx1]) (by rw [hgll, hx1]) s hts y (by rw [hy, hx1])
      simp only [WaveFlow.forwardFlows, List.take_succ_cons, List.map_cons,
        List.get_cons_succ]
      simp only [affineFold, List.foldl_cons] at this ⊢
      rw [hcomp]
      exact this

/-- Claim C4 counterexample: for two flows with all-zero weights on the
height-2 input grid `[1, 0]` (width 1), after the second flow the current
transformed signal (the value just written to `x` at modules.py line 323) is
the *reversed* input — the inter-flow `full_flip` is not recorded in the
running pair — so it differs from `exp(global_logvar) * x₀ + global_mean`
at row 0: the signal holds 0 there while the claimed affine image of the
original grid-form input holds 1. -/
theorem claim_C4_cex :
    ((traceC4.getD 1 (FlowRec.dflt ℤ 1)).xPre.getD 0 0) 0 ≠
      oneExp (((traceC4.getD 1 (FlowRec.dflt ℤ 1)).gl.getD 0 0) 0)
          * ((xC4.getD 0 0) 0)
        + ((traceC4.getD 1 (FlowRec.dflt ℤ 1)).gm.getD 0 0) 0 := by
  decide

/-- Claim C4 (amended): during a forward pass, after processing each flow
the running pair `(global_mean, global_logvar)` represents the single affine
map composed of all processed flows' affine transforms — applying the
processed flows' `(mean, clamped logvar)` maps in sequence to any grid of
the input's shape equals `y ↦ exp(global_logvar) * y + global_mean` — and
the current transformed signal equals that map's image of the flow's input
for the first flow; for later prefixes the pointwise signal identity
`x = exp(global_logvar) * x₀ + global_mean` fails in general, because the
inter-flow time-axis permutations applied to the signal are not recorded in
the running pair (see the counterexample). -/
theorem claim_C4 [AddCommMonoid V] [Zero γ] [LinearOrderedCommRing R] (e : R → R)
    (hexp : ∀ a b : R, e (a + b) = e a * e b)
    (flows : List (ResidualStack γ V R W k)) (i : ℕ) (x : List (Row R W)) (c : List γ)
    (t : ℕ) (ht : t < ((WaveFlow.forwardFlows e flows i x c none).2.2).length)
    (y : List (Row R W)) (hy : y.length = x.length) :
    affineFold e
        ((((WaveFlow.forwardFlows e flows i x c none).2.2).take (t + 1)).map
          (fun r => (r.mean, r.logvar))) y
      = affineApply e
          (((WaveFlow.forwardFlows e flows i x c none).2.2).get ⟨t, ht⟩).gm
          (((WaveFlow.forwardFlows e flows i x c none).2.2).get ⟨t, ht⟩).gl y
    ∧ ∀ (h0 : 0 < ((WaveFlow.forwardFlows e flows i x c none).2.2).length),
        (((WaveFlow.forwardFlows e flows i x c none).2.2).get ⟨0, h0⟩).xPre
          = affineApply e
              (((WaveFlow.forwardFlows e flows i x c none).2.2).get ⟨0, h0⟩).gm
              (((WaveFlow.forwardFlows e flows i x c none).2.2).get ⟨0, h0⟩).gl
              (((WaveFlow.forwardFlows e flows i x c none).2.2).get ⟨0, h0⟩).xIn := by
  cases flows with
  | nil => simp [WaveFlow.forwardFlows] at ht
  | cons f rest =>
    constructor
    · cases t with
      | zero =>
        simp only [WaveFlow.forwardFlows, List.take_succ_cons, List.take_zero,
          List.map_cons, List.map_nil, List.get_cons_zero]
        simp only [affineFold, List.foldl_cons, List.foldl_nil]
        rfl
      | succ s =>
        have hts : s < ((WaveFlow.forwardFlows e rest (i + 1)
            (forward_flip i (WaveFlow.flowStep e f x c none).xPre)
            (forward_flip i c)
            (some ((WaveFlow.flowStep e f x c none).gm,
                   (WaveFlow.flowStep e f x c none).gl))).2.2).length := by
          have := ht
          simp only [WaveFlow.forwardFlows, List.length_cons] at this
          omega
        have hx1 : (forward_flip i (WaveFlow.flowStep e f x c none).xPre).length
            = x.length := by
          rw [length_forward_flip, length_flowStep_xPre]
        have hgm0 : (WaveFlow.flowStep e f x c none).gm
            = (WaveFlow.flowStep e f x c none).mean := rfl
        have hgl0 : (WaveFlow.flowStep e f x c none).gl
            = (WaveFlow.flowStep e f x c none).logvar := rfl
        have := forwardFlows_trace_compose e hexp rest (i + 1)
          (forward_flip i (WaveFlow.flowStep e f x c none).xPre)
          (forward_flip i c)
          (WaveFlow.flowStep e f x c none).gm
          (WaveFlow.flowStep e f x c none).gl
          (by rw [hgm0, length_flowStep_mean, hx1])
          (by rw [hgl0, length_flowStep_logvar, hx1])
          s hts y (by rw [hy, hx1])
        simp only [WaveFlow.forwardFlows, List.take_succ_cons, List.map_cons,
          List.get_cons_succ]
        simp only [affineFold, List.foldl_cons] at this ⊢
        rw [show affineApply e (WaveFlow.flowStep e f x c none).mean
            (WaveFlow.flowStep e f x c none).logvar y
          = affineApply e (WaveFlow.flowStep e f x c none).gm
            (WaveFlow.flowStep e f x c none).gl y from rfl]
        exact this
    · intro h0
      simp only [WaveFlow.forwardFlows, List.get_cons_zero]
      rfl

/-- Witness for C4 at the two-zero-flow instance: the composed map of both
flows applied to the grid `xC4` itself. -/
theorem claim_C4_witness :
    affineFold oneExp
        ((((WaveFlow.forwardFlows oneExp [zeroStack, zeroStack] 0 xC4 cC4 none).2.2).take 2).map
          (fun r => (r.mean, r.logvar))) xC4
      = affineApply oneExp
          (((WaveFlow.forwardFlows oneExp [zeroStack, zeroStack] 0 xC4 cC4 none).2.2).get
            ⟨1, by decide⟩).gm
          (((WaveFlow.forwardFlows oneExp [zeroStack, zeroStack] 0 xC4 cC4 none).2.2).get
            ⟨1, by decide⟩).gl xC4 :=
  (claim_C4 oneExp (by intro a b; simp [oneExp]) [zeroStack, zeroStack] 0 xC4 cC4 1
    (by decide) xC4 rfl).1

/-- Claim C9: in every composition step of the forward pass the logvar
actually used (recorded in the trace, and by construction the one the signal
update `x = exp(logvar)*x + mean` and the running composition consume) is
clamped to at most 10 at every grid position, so for a monotone exponential
the scale term never exceeds `exp 10`. -/
theorem claim_C9 [AddCommMonoid V] [Zero γ] [LinearOrderedCommRing R] (e : R → R)
    (flows : List (ResidualStack γ V R W k)) (i : ℕ) (x : List (Row R W)) (c : List γ)
    (acc : Option (List (Row R W) × List (Row R W))) :
    ∀ fr ∈ (WaveFlow.forwardFlows e flows i x c acc).2.2,
      (∀ lrow ∈ fr.logvar, ∀ w, lrow w ≤ 10 ∧ (Monotone e → e (lrow w) ≤ e 10))
      ∧ fr.xPre = affineApply e fr.mean fr.logvar fr.xIn := by
  induction flows generalizing i x c acc with
  | nil => intro fr h; simp [WaveFlow.forwardFlows] at h
  | cons f rest ih =>
    intro fr h
    simp only [WaveFlow.forwardFlows] at h
    rcases List.mem_cons.mp h with h0 | hrest
    · subst h0
      refine ⟨?_, rfl⟩
      intro lrow hl w
      have : lrow ∈ ((f.forward x c).map Prod.snd).map clampRow := hl
      rcases List.mem_map.mp this with ⟨l', _, rfl⟩
      exact ⟨min_le_right _ _, fun hm => hm (min_le_right _ _)⟩
    · exact ih _ _ _ _ fr hrest

/-- Witness for C9 on a one-flow model whose raw logvar output is 42: the
recorded (used) logvar is clamped to 10. -/
theorem claim_C9_witness :
    ((traceC9.getD 0 (FlowRec.dflt ℤ 1)).logvar.getD 0 0) 0 ≤ 10 ∧
    id (((traceC9.getD 0 (FlowRec.dflt ℤ 1)).logvar.getD 0 0) 0) ≤ id 10 := by
  have h := (claim_C9 id [bigLvStack] 0 [fun _ => 1] [fun _ => 0] none
      (traceC9.getD 0 (FlowRec.dflt ℤ 1))
      (getD_mem traceC9 0 (FlowRec.dflt ℤ 1) (by decide))).1
      ((traceC9.getD 0 (FlowRec.dflt ℤ 1)).logvar.getD 0 0)
      (getD_mem _ 0 0 (by decide)) 0
  exact ⟨h.1, h.2 monotone_id⟩

/-! ### Ring-buffer lemmas (the `CircularTensor` cache) -/

theorem window_length {V : Type v} (ct : CircularTensor V) :
    ct.window.length = ct.tensor.length := by
  simp [CircularTensor.window]
  omega

theorem push_tensor_length {V : Type v} (ct : CircularTensor V) (v : V) :
    (ct.push v).tensor.length = ct.tensor.length := by
  simp [CircularTensor.push]

theorem push_valid {V : Type v} (ct : CircularTensor V) (v : V)
    (h0 : 0 < ct.tensor.length) : (ct.push v).Valid := by
  simp only [CircularTensor.push, CircularTensor.Valid, List.length_set]
  exact Nat.mod_lt _ h0

theorem take_set_succ {α : Type*} (l : List α) (c : ℕ) (v : α) (h : c < l.length) :
    (l.set c v).take (c + 1) = l.take c ++ [v] := by
  apply List.ext_get
  · simp
    omega
  · intro n h1 h2
    simp only [List.get_eq_getElem, List.getElem_take, List.getElem_set]
    by_cases hn : n = c
    · subst hn
      simp [List.getElem_append_right, List.length_take, Nat.min_eq_left (Nat.le_of_lt h)]
    · have hn' : n < c := by
        simp [List.length_take] at h1
        omega
      rw [List.getElem_append_left (by simp [List.length_take]; omega)]
      simp only [List.getElem_take]
      rw [if_neg (fun hcn => hn hcn.symm)]

/-- Pushing into a valid ring buffer drops the oldest entry from the window
and appends the pushed value — the spec's §4.2 window invariant. -/
theorem window_push {V : Type v} (ct : CircularTensor V) (v : V) (hv : ct.Valid) :
    (ct.push v).window = ct.window.drop 1 ++ [v] := by
  have h0 : 0 < ct.tensor.length := lt_of_le_of_lt (Nat.zero_le _) hv
  by_cases hb : ct.cursor + 1 = ct.tensor.length
  · -- wrap-around: the new cursor is 0 and the window is the raw buffer
    have hc0 : (ct.cursor + 1) % ct.tensor.length = 0 := by
      rw [hb]
      exact Nat.mod_self _
    have hset : ct.tensor.set ct.cursor v = ct.tensor.take ct.cursor ++ [v] := by
      have hfull : (ct.tensor.set ct.cursor v).take (ct.cursor + 1)
          = ct.tensor.set ct.cursor v := by
        apply List.take_of_length_le
        simp [hb]
      rw [← hfull, take_set_succ ct.tensor ct.cursor v hv]
    have hdropc : ct.tensor.drop ct.cursor
        = ct.tensor.get ⟨ct.cursor, hv⟩ :: [] := by
      rw [List.drop_eq_getElem_cons hv]
      have : ct.tensor.drop (ct.cursor + 1) = [] := by
        apply List.drop_eq_nil_of_le
        omega
      rw [this]
      rfl
    simp only [CircularTensor.push, CircularTensor.window, List.length_set, hc0,
      List.drop_zero, List.take_zero, List.append_nil]
    rw [hset, hdropc]
    simp
  · -- no wrap: the new cursor is cursor + 1
    have hlt : ct.cursor + 1 < ct.tensor.length := by
      have := hv
      simp only [CircularTensor.Valid] at this
      omega
    have hc1 : (ct.cursor + 1) % ct.tensor.length = ct.cursor + 1 :=
      Nat.mod_eq_of_lt hlt
    simp only [CircularTensor.push, CircularTensor.window, List.length_set, hc1]
    rw [List.drop_set_of_lt _ _ (Nat.lt_succ_self _),
      take_set_succ ct.tensor ct.cursor v hv]
    rw [List.drop_append_of_le_length (by simp; omega)]
    rw [List.drop_drop]
    simp [Nat.add_comm]

/-- Zeroing the buffer contents (at any valid cursor position) makes the
window the all-zero window. -/
theorem window_zeroed {V : Type v} [Zero V] (ct : CircularTensor V)
    (hc : ct.cursor ≤ ct.tensor.length) :
    (ct.zeroed).window = List.replicate ct.tensor.length (0 : V) := by
  simp only [CircularTensor.zeroed, CircularTensor.window]
  rw [← List.map_drop, ← List.map_take]
  rw [List.map_const', List.map_const']
  rw [← List.replicate_add]
  congr 1
  simp
  omega

theorem fresh_window {V : Type v} [Zero V] (L : ℕ) :
    ((⟨List.replicate L (0 : V), 0⟩ : CircularTensor V)).window
      = List.replicate L (0 : V) := by
  simp [CircularTensor.window]

theorem ctEquiv_refl {V : Type v} (a : CircularTensor V) : ctEquiv a a := Or.inl rfl

theorem ctEquiv_window {V : Type v} {a b : CircularTensor V} (h : ctEquiv a b) :
    a.window = b.window := by
  rcases h with rfl | ⟨_, _, hw⟩
  · rfl
  · exact hw

theorem ctEquiv_push {V : Type v} {a b : CircularTensor V} (h : ctEquiv a b) (v : V) :
    ctEquiv (a.push v) (b.push v) := by
  rcases h with rfl | ⟨hva, hvb, hw⟩
  · exact Or.inl rfl
  · refine Or.inr ⟨push_valid a v (lt_of_le_of_lt (Nat.zero_le _) hva),
      push_valid b v (lt_of_le_of_lt (Nat.zero_le _) hvb), ?_⟩
    rw [window_push a v hva, window_push b v hvb, hw]

/-- The streaming block loop reads the caches only through their windows:
window-equivalent cache lists produce the same skip sum and
window-equivalent updated caches. -/
theorem blockFoldAR_congr [AddCommMonoid V] [Zero γ]
    (bs : List (ResidualBlock γ V k)) :
    ∀ (cs1 cs2 : List (CircularTensor V)) (r : V) (cr : γ),
      List.Forall₂ ctEquiv cs1 cs2 →
      (blockFoldAR bs cs1 r cr).1 = (blockFoldAR bs cs2 r cr).1 ∧
      List.Forall₂ ctEquiv (blockFoldAR bs cs1 r cr).2 (blockFoldAR bs cs2 r cr).2 := by
  induction bs with
  | nil =>
    intro cs1 cs2 r cr _
    exact ⟨rfl, List.Forall₂.nil⟩
  | cons b bs ih =>
    intro cs1 cs2 r cr h
    cases h with
    | nil =>
      exact ⟨rfl, List.forall₂_same.mpr (fun a _ => ctEquiv_refl a)⟩
    | @cons a a' t1 t2 hab htail =>
      have hpush := ctEquiv_push hab r
      have hw := ctEquiv_window hpush
      simp only [blockFoldAR, List.headD_cons, List.tail_cons]
      rw [hw]
      obtain ⟨h1, h2⟩ := ih t1 t2 (b.forwardInc ((a'.push r).window) cr).1 cr htail
      exact ⟨by rw [h1], List.Forall₂.cons hpush h2⟩

/-- The streaming block loop keeps the caches well-shaped: buffer heights
are preserved and cursors stay valid. -/
theorem blockFoldAR_wf [AddCommMonoid V] [Zero γ]
    (bs : List (ResidualBlock γ V k)) :
    ∀ (cs : List (CircularTensor V)) (r : V) (cr : γ),
      List.Forall₂ cacheWF cs bs →
      List.Forall₂ cacheWF (blockFoldAR bs cs r cr).2 bs := by
  induction bs with
  | nil =>
    intro cs r cr h
    exact List.Forall₂.nil
  | cons b bs ih =>
    intro cs r cr h
    cases h with
    | @cons ct b' t1 t2 hb ht =>
      simp only [blockFoldAR, List.headD_cons, List.tail_cons]
      refine List.Forall₂.cons ⟨?_, ?_⟩ (ih t1 _ cr ht)
      · rw [push_tensor_length]
        exact hb.1
      · exact push_valid _ _ (by rw [hb.1]; omega)

theorem arStep_congr [AddCommMonoid V] [Zero γ] [LinearOrderedCommRing R] (e : R → R)
    (S : ResidualStack γ V R W k) (c : List γ)
    (st1 st2 : List (Row R W) × List (CircularTensor V)) (step : ℕ)
    (hz : st1.1 = st2.1) (hc : List.Forall₂ ctEquiv st1.2 st2.2) :
    (S.arStep e c st1 step).1 = (S.arStep e c st2 step).1 ∧
    List.Forall₂ ctEquiv (S.arStep e c st1 step).2 (S.arStep e c st2 step).2 := by
  obtain ⟨z1, cs1⟩ := st1
  obtain ⟨z2, cs2⟩ := st2
  simp only at hz hc
  subst hz
  simp only [ResidualStack.arStep]
  obtain ⟨h1, h2⟩ := blockFoldAR_congr S.stack cs1 cs2
    (S.tanhRes (S.fc0 (z1.getD step 0) + S.fc1 (z1.getD (step + 1) 0)))
    (c.getD step 0) hc
  exact ⟨by rw [h1], h2⟩

theorem arStep_wf [AddCommMonoid V] [Zero γ] [LinearOrderedCommRing R] (e : R → R)
    (S : ResidualStack γ V R W k) (c : List γ)
    (st : List (Row R W) × List (CircularTensor V)) (step : ℕ)
    (h : List.Forall₂ cacheWF st.2 S.stack) :
    List.Forall₂ cacheWF (S.arStep e c st step).2 S.stack := by
  simp only [ResidualStack.arStep]
  exact blockFoldAR_wf S.stack st.2 _ _ h

theorem arLoop_congr [AddCommMonoid V] [Zero γ] [LinearOrderedCommRing R] (e : R → R)
    (S : ResidualStack γ V R W k) (c : List γ) (steps : List ℕ) :
    ∀ (st1 st2 : List (Row R W) × List (CircularTensor V)),
      st1.1 = st2.1 → List.Forall₂ ctEquiv st1.2 st2.2 →
      (steps.foldl (S.arStep e c) st1).1 = (steps.foldl (S.arStep e c) st2).1 ∧
      List.Forall₂ ctEquiv (steps.foldl (S.arStep e c) st1).2
        (steps.foldl (S.arStep e c) st2).2 := by
  induction steps with
  | nil =>
    intro st1 st2 hz hc
    exact ⟨hz, hc⟩
  | cons s steps ih =>
    intro st1 st2 hz hc
    simp only [List.foldl_cons]
    obtain ⟨h1, h2⟩ := arStep_congr e S c st1 st2 s hz hc
    exact ih _ _ h1 h2

theorem arLoop_wf [AddCommMonoid V] [Zero γ] [LinearOrderedCommRing R] (e : R → R)
    (S : ResidualStack γ V R W k) (c : List γ) (steps : List ℕ) :
    ∀ (st : List (Row R W) × List (CircularTensor V)),
      List.Forall₂ cacheWF st.2 S.stack →
      List.Forall₂ cacheWF (steps.foldl (S.arStep e c) st).2 S.stack := by
  induction steps with
  | nil => intro st h; exact h
  | cons s steps ih =>
    intro st h
    simp only [List.foldl_cons]
    exact ih _ (arStep_wf e S c st s h)

/-- Fresh buffers are well-shaped for their blocks. -/
theorem fresh_caches_wf {γ : Type u} {V : Type v} {k : ℕ} [AddCommMonoid V]
    (bs : List (ResidualBlock γ V k)) :
    List.Forall₂ cacheWF
      (bs.map (fun b => (⟨List.replicate ((k - 1) * b.dilation + 1) (0 : V), 0⟩ :
        CircularTensor V))) bs := by
  induction bs with
  | nil => exact List.Forall₂.nil
  | cons b bs ih =>
    refine List.Forall₂.cons ⟨by simp, ?_⟩ ih
    simp [CircularTensor.Valid]

/-- Zeroing well-shaped buffers makes them window-equivalent to fresh
buffers. -/
theorem zeroed_equiv_fresh {γ : Type u} {V : Type v} {k : ℕ} [AddCommMonoid V]
    (bs : List (ResidualBlock γ V k)) :
    ∀ (cs : List (CircularTensor V)), List.Forall₂ cacheWF cs bs →
      List.Forall₂ ctEquiv (cs.map CircularTensor.zeroed)
        (bs.map (fun b => (⟨List.replicate ((k - 1) * b.dilation + 1) (0 : V), 0⟩ :
          CircularTensor V))) := by
  induction bs with
  | nil =>
    intro cs h
    cases h
    exact List.Forall₂.nil
  | cons b bs ih =>
    intro cs h
    cases h with
    | @cons ct b' t1 t2 hb ht =>
      refine List.Forall₂.cons (Or.inr ⟨?_, ?_, ?_⟩) (ih t1 ht)
      · simp only [CircularTensor.zeroed, CircularTensor.Valid, List.length_map]
        exact hb.2
      · simp [CircularTensor.Valid]
      · rw [window_zeroed ct (le_of_lt hb.2), fresh_window, hb.1]

/-- Zeroed well-shaped buffers are still well-shaped. -/
theorem zeroed_wf {γ : Type u} {V : Type v} {k : ℕ} [AddCommMonoid V]
    (bs : List (ResidualBlock γ V k)) :
    ∀ (cs : List (CircularTensor V)), List.Forall₂ cacheWF cs bs →
      List.Forall₂ cacheWF (cs.map CircularTensor.zeroed) bs := by
  induction bs with
  | nil =>
    intro cs h
    cases h
    exact List.Forall₂.nil
  | cons b bs ih =>
    intro cs h
    cases h with
    | @cons ct b' t1 t2 hb ht =>
      refine List.Forall₂.cons ⟨by simpa [CircularTensor.zeroed] using hb.1, ?_⟩ (ih t1 ht)
      simp only [CircularTensor.zeroed, CircularTensor.Valid, List.length_map]
      exact hb.2

/-- `arTransform` leaves well-shaped caches behind, both on first use and on
a resumed synthesis with well-shaped caches. -/
theorem arTransform_wf [AddCommMonoid V] [Zero γ] [LinearOrderedCommRing R] (e : R → R)
    (S : ResidualStack γ V R W k) (hSteps : ℕ)
    (cache : Option (List (CircularTensor V))) (z : List (Row R W)) (c : List γ)
    (hcw : ∀ cs, cache = some cs → StateWF S cs) :
    StateWF S (S.arTransform e hSteps cache z c).2 := by
  unfold ResidualStack.arTransform
  cases cache with
  | none =>
    exact arLoop_wf e S c (List.range hSteps) _ (fresh_caches_wf S.stack)
  | some cs =>
    exact arLoop_wf e S c (List.range hSteps) _ (zeroed_wf S.stack cs (hcw cs rfl))

/-- A resumed `arTransform` (existing caches zeroed in place, cursors kept)
produces the same transformed signal as a first-use `arTransform` (fresh
zero caches, cursor 0): a zeroed ring buffer behaves identically from any
valid cursor position. -/
theorem arTransform_resume_eq [AddCommMonoid V] [Zero γ] [LinearOrderedCommRing R]
    (e : R → R) (S : ResidualStack γ V R W k) (hSteps : ℕ)
    (z : List (Row R W)) (c : List γ) (cs : List (CircularTensor V))
    (hwf : StateWF S cs) :
    (S.arTransform e hSteps (some cs) z c).1 = (S.arTransform e hSteps none z c).1 := by
  unfold ResidualStack.arTransform
  obtain ⟨h1, _⟩ := arLoop_congr e S c (List.range hSteps)
    (List.replicate 2 (0 : Row R W) ++ z, cs.map CircularTensor.zeroed)
    (List.replicate 2 (0 : Row R W) ++ z,
      S.stack.map (fun b => (⟨List.replicate ((k - 1) * b.dilation + 1) (0 : V), 0⟩ :
        CircularTensor V)))
    rfl (zeroed_equiv_fresh S.stack cs hwf)
  simp only
  rw [h1]

/-! ### `getD`/`zat` toolkit -/

theorem getD_eq_default {α : Type*} (l : List α) (n : ℕ) (d : α)
    (h : l.length ≤ n) : l.getD n d = d := by
  induction l generalizing n with
  | nil => simp [List.getD]
  | cons a l ih =>
    cases n with
    | zero => simp at h
    | succ m =>
      simp only [List.getD_cons_succ]
      exact ih m (by simpa using h)

theorem getD_set_ne {α : Type*} (l : List α) (i j : ℕ) (v d : α) (h : i ≠ j) :
    (l.set i v).getD j d = l.getD j d := by
  induction l generalizing i j with
  | nil => simp
  | cons a l ih =>
    cases i with
    | zero =>
      cases j with
      | zero => exact absurd rfl h
      | succ m => simp [List.set]
    | succ n =>
      cases j with
      | zero => simp [List.set]
      | succ m =>
        simp only [List.set, List.getD_cons_succ]
        exact ih n m (fun hh => h (by omega))

theorem getD_set_eq {α : Type*} (l : List α) (i : ℕ) (v d : α) (h : i < l.length) :
    (l.set i v).getD i d = v := by
  induction l generalizing i with
  | nil => simp at h
  | cons a l ih =>
    cases i with
    | zero => simp [List.set]
    | succ n =>
      simp only [List.set, List.getD_cons_succ]
      exact ih n (by simpa using h)

theorem getD_map_in {α β : Type*} (f : α → β) (l : List α) (i : ℕ) (d : β) (d' : α)
    (h : i < l.length) : (l.map f).getD i d = f (l.getD i d') := by
  rw [List.getD_eq_get _ _ (by simpa using h), List.getD_eq_get _ _ h, List.get_map]

theorem getD_take_lt {α : Type*} (l : List α) (m i : ℕ) (d : α) (h : i < m) :
    (l.take m).getD i d = l.getD i d := by
  by_cases hl : i < l.length
  · rw [List.getD_eq_getElem _ _ (by simp; omega), List.getD_eq_getElem _ _ hl]
    exact List.getElem_take l
  · rw [getD_eq_default _ _ _ (by simp; omega), getD_eq_default _ _ _ (by omega)]

theorem getD_ofFn_in {α : Type*} {n : ℕ} (f : Fin n → α) (i : ℕ) (d : α)
    (h : i < n) : (List.ofFn f).getD i d = f ⟨i, h⟩ := by
  rw [List.getD_eq_get _ _ (by simpa using h), List.get_ofFn]
  congr 1

theorem zat_coe {α : Type*} [Zero α] (l : List α) (n : ℕ) :
    zat l (n : ℤ) = l.getD n 0 := by
  simp [zat]

theorem zat_neg {α : Type*} [Zero α] (l : List α) (i : ℤ) (h : i < 0) :
    zat l i = 0 := by
  simp only [zat, if_neg (by omega : ¬ (0 : ℤ) ≤ i)]

/-- Two lists that agree in `getD` up to index `r` agree in padded `zat`
access at every integer index at most `r`. -/
theorem zat_agree {α : Type*} [Zero α] {l1 l2 : List α} {r : ℕ}
    (h : ∀ s, s ≤ r → l1.getD s 0 = l2.getD s 0) (i : ℤ) (hi : i ≤ (r : ℤ)) :
    zat l1 i = zat l2 i := by
  rcases lt_or_le i 0 with hneg | hpos
  · rw [zat_neg _ _ hneg, zat_neg _ _ hneg]
  · obtain ⟨n, rfl⟩ := Int.eq_ofNat_of_zero_le hpos
    rw [zat_coe, zat_coe]
    exact h n (by exact_mod_cast hi)

/-! ### Causality of the parallel coupling network

Row `t` of `ResidualStack.forward` depends only on rows `< t` of the signal
and rows `≤ t` of the conditioning: `first_conv` is strictly causal and each
block's `initial_conv` only looks backward. -/

theorem block_forward_fst [AddCommMonoid V] [Zero γ] (b : ResidualBlock γ V k)
    (r : List V) (c : List γ) :
    (b.forward r c).1
      = List.ofFn (fun t : Fin r.length => b.resconv (b.gateRow r c t.1) + r.get t) := rfl

theorem block_forward_snd [AddCommMonoid V] [Zero γ] (b : ResidualBlock γ V k)
    (r : List V) (c : List γ) :
    (b.forward r c).2
      = List.ofFn (fun t : Fin r.length => b.skipconv (b.gateRow r c t.1)) := rfl

theorem gateRow_agree [AddCommMonoid V] [Zero γ] (b : ResidualBlock γ V k)
    {l1 l2 : List V} {c1 c2 : List γ} {r : ℕ}
    (hl : ∀ s, s ≤ r → l1.getD s 0 = l2.getD s 0)
    (hc : ∀ s, s ≤ r → c1.getD s 0 = c2.getD s 0)
    (t : ℕ) (ht : t ≤ r) :
    b.gateRow l1 c1 t = b.gateRow l2 c2 t := by
  have htap : ∀ u : Fin k,
      zat l1 ((t : ℤ) - ((k - 1 - u.1 : ℕ) : ℤ) * (b.dilation : ℤ))
        = zat l2 ((t : ℤ) - ((k - 1 - u.1 : ℕ) : ℤ) * (b.dilation : ℤ)) := by
    intro u
    refine zat_agree hl _ ?_
    have : (0 : ℤ) ≤ ((k - 1 - u.1 : ℕ) : ℤ) * (b.dilation : ℤ) := by positivity
    omega
  unfold ResidualBlock.gateRow
  rw [hc t ht]
  congr 2
  · exact congrArg List.sum (List.map_congr_left (fun u _ => by rw [htap u]))
  · exact congrArg List.sum (List.map_congr_left (fun u _ => by rw [htap u]))

theorem block_forward_agree [AddCommMonoid V] [Zero γ] (b : ResidualBlock γ V k)
    {l1 l2 : List V} {c1 c2 : List γ} {r : ℕ}
    (hlen : ∀ s, s ≤ r → (s < l1.length ↔ s < l2.length))
    (hl : ∀ s, s ≤ r → l1.getD s 0 = l2.getD s 0)
    (hc : ∀ s, s ≤ r → c1.getD s 0 = c2.getD s 0) :
    (∀ s, s ≤ r → (b.forward l1 c1).1.getD s 0 = (b.forward l2 c2).1.getD s 0) ∧
    (∀ s, s ≤ r → (b.forward l1 c1).2.getD s 0 = (b.forward l2 c2).2.getD s 0) := by
  rw [block_forward_fst, block_forward_fst, block_forward_snd, block_forward_snd]
  constructor <;> intro s hs <;> by_cases hsl : s < l1.length
  · rw [getD_ofFn_in _ _ _ hsl, getD_ofFn_in _ _ _ ((hlen s hs).mp hsl)]
    simp only
    rw [gateRow_agree b hl hc s hs]
    congr 1
    rw [List.get_eq_getElem, List.get_eq_getElem,
      ← List.getD_eq_getElem l1 0 hsl, ← List.getD_eq_getElem l2 0 ((hlen s hs).mp hsl)]
    exact hl s hs
  · rw [getD_eq_default _ _ _ (by simp; omega),
      getD_eq_default _ _ _ (by
        have := (hlen s hs).not.mp hsl
        simp
        omega)]
  · rw [getD_ofFn_in _ _ _ hsl, getD_ofFn_in _ _ _ ((hlen s hs).mp hsl)]
    simp only
    rw [gateRow_agree b hl hc s hs]
  · rw [getD_eq_default _ _ _ (by simp; omega),
      getD_eq_default _ _ _ (by
        have := (hlen s hs).not.mp hsl
        simp
        omega)]

theorem chain_agree [AddCommMonoid V] [Zero γ] {c1 c2 : List γ} {r : ℕ}
    (hc : ∀ s, s ≤ r → c1.getD s 0 = c2.getD s 0) :
    ∀ (bs : List (ResidualBlock γ V k)) (st1 st2 : List V × List V),
      (∀ s, s ≤ r → (s < st1.1.length ↔ s < st2.1.length)) →
      (∀ s, s ≤ r → (s < st1.2.length ↔ s < st2.2.length)) →
      (∀ s, s ≤ r → st1.1.getD s 0 = st2.1.getD s 0) →
      (∀ s, s ≤ r → st1.2.getD s 0 = st2.2.getD s 0) →
      (∀ s, s ≤ r →
        ((s < (bs.foldl (chainF c1) st1).2.length ↔ s < (bs.foldl (chainF c2) st2).2.length))) ∧
      (∀ s, s ≤ r →
        (bs.foldl (chainF c1) st1).2.getD s 0 = (bs.foldl (chainF c2) st2).2.getD s 0) := by
  intro bs
  induction bs with
  | nil =>
    intro st1 st2 _ hlen2 _ hacc
    exact ⟨hlen2, hacc⟩
  | cons b bs ih =>
    intro st1 st2 hlen1 hlen2 hst hacc
    simp only [List.foldl_cons]
    obtain ⟨hbag1, hbag2⟩ := block_forward_agree b hlen1 hst hc
    have hlen1' : ∀ s, s ≤ r →
        (s < (b.forward st1.1 c1).1.length ↔ s < (b.forward st2.1 c2).1.length) := by
      intro s hs
      rw [block_forward_fst, block_forward_fst]
      simp only [List.length_ofFn]
      exact hlen1 s hs
    have hlen2' : ∀ s, s ≤ r →
        (s < (List.zipWith (· + ·) st1.2 (b.forward st1.1 c1).2).length ↔
         s < (List.zipWith (· + ·) st2.2 (b.forward st2.1 c2).2).length) := by
      intro s hs
      rw [block_forward_snd, block_forward_snd]
      simp only [List.length_zipWith, List.length_ofFn, lt_min_iff]
      constructor
      · rintro ⟨h1, h2⟩
        exact ⟨(hlen2 s hs).mp h1, (hlen1 s hs).mp h2⟩
      · rintro ⟨h1, h2⟩
        exact ⟨(hlen2 s hs).mpr h1, (hlen1 s hs).mpr h2⟩
    have hacc' : ∀ s, s ≤ r →
        (List.zipWith (· + ·) st1.2 (b.forward st1.1 c1).2).getD s 0
          = (List.zipWith (· + ·) st2.2 (b.forward st2.1 c2).2).getD s 0 := by
      intro s hs
      by_cases hin : s < (List.zipWith (· + ·) st1.2 (b.forward st1.1 c1).2).length
      · have hin2 := (hlen2' s hs).mp hin
        simp only [List.length_zipWith, lt_min_iff] at hin hin2
        rw [List.getD_eq_getElem _ _ (by simp [List.length_zipWith]; omega),
          List.getD_eq_getElem _ _ (by simp [List.length_zipWith]; omega),
          List.getElem_zipWith, List.getElem_zipWith]
        rw [← List.getD_eq_getElem st1.2 0 hin.1, ← List.getD_eq_getElem st2.2 0 hin2.1,
          ← List.getD_eq_getElem _ 0 hin.2, ← List.getD_eq_getElem _ 0 hin2.2,
          hacc s hs, hbag2 s hs]
      · rw [getD_eq_default _ _ _ (by omega),
          getD_eq_default _ _ _ (by
            have := (hlen2' s hs).not.mp hin
            omega)]
    exact ih ((b.forward st1.1 c1).1, List.zipWith (· + ·) st1.2 (b.forward st1.1 c1).2)
      ((b.forward st2.1 c2).1, List.zipWith (· + ·) st2.2 (b.forward st2.1 c2).2)
      hlen1' hlen2' hbag1 hacc'

theorem res0_agree [AddCommMonoid V] [LinearOrderedCommRing R]
    (S : ResidualStack γ V R W k) {z1 z2 : List (Row R W)} {r : ℕ}
    (hlen : ∀ s, s ≤ r → (s < z1.length ↔ s < z2.length))
    (hz : ∀ s, s < r → z1.getD s 0 = z2.getD s 0) :
    ∀ s, s ≤ r → (S.res0 z1).getD s 0 = (S.res0 z2).getD s 0 := by
  intro s hs
  have hzat : ∀ i : ℤ, i ≤ (r : ℤ) - 1 → zat z1 i = zat z2 i := by
    intro i hi
    rcases lt_or_le i 0 with hneg | hpos
    · rw [zat_neg _ _ hneg, zat_neg _ _ hneg]
    · obtain ⟨n, rfl⟩ := Int.eq_ofNat_of_zero_le hpos
      rw [zat_coe, zat_coe]
      exact hz n (by omega)
  rw [ResidualStack.res0, ResidualStack.res0]
  by_cases hsl : s < z1.length
  · rw [getD_ofFn_in _ _ _ hsl, getD_ofFn_in _ _ _ ((hlen s hs).mp hsl)]
    simp only
    rw [hzat ((s : ℤ) - 2) (by omega), hzat ((s : ℤ) - 1) (by omega)]
  · rw [getD_eq_default _ _ _ (by simp; omega),
      getD_eq_default _ _ _ (by
        have := (hlen s hs).not.mp hsl
        simp
        omega)]

theorem getD_replicate_zero {α : Type*} [Zero α] (n s : ℕ) :
    (List.replicate n (0 : α)).getD s 0 = 0 := by
  by_cases h : s < n
  · rw [List.getD_eq_getElem _ _ (by simpa using h), List.getElem_replicate]
  · rw [getD_eq_default _ _ _ (by simpa using h)]

/-- Causality of the coupling network: row `s ≤ r` of the stack output depends
only on signal rows strictly below `r` and conditioning rows at most `r`. -/
theorem stack_forward_agree [AddCommMonoid V] [Zero γ] [LinearOrderedCommRing R]
    (S : ResidualStack γ V R W k) {z1 z2 : List (Row R W)} {c1 c2 : List γ} {r : ℕ}
    (hlen : ∀ s, s ≤ r → (s < z1.length ↔ s < z2.length))
    (hz : ∀ s, s < r → z1.getD s 0 = z2.getD s 0)
    (hc : ∀ s, s ≤ r → c1.getD s 0 = c2.getD s 0) :
    ∀ s, s ≤ r → (S.forward z1 c1).getD s (0, 0) = (S.forward z2 c2).getD s (0, 0) := by
  intro s hs
  have hlenr : ∀ s, s ≤ r → (s < (S.res0 z1).length ↔ s < (S.res0 z2).length) := by
    intro s hs
    rw [ResidualStack.res0, ResidualStack.res0]
    simp only [List.length_ofFn]
    exact hlen s hs
  have hlena : ∀ s, s ≤ r →
      (s < (List.replicate z1.length (0 : V)).length ↔
       s < (List.replicate z2.length (0 : V)).length) := by
    intro s hs
    simp only [List.length_replicate]
    exact hlen s hs
  have hacc0 : ∀ s, s ≤ r →
      (List.replicate z1.length (0 : V)).getD s 0
        = (List.replicate z2.length (0 : V)).getD s 0 := by
    intro s _
    rw [getD_replicate_zero, getD_replicate_zero]
  obtain ⟨hflen, hfacc⟩ := chain_agree hc S.stack
    (S.res0 z1, List.replicate z1.length (0 : V))
    (S.res0 z2, List.replicate z2.length (0 : V))
    hlenr hlena (res0_agree S hlen hz) hacc0
  show ((S.stack.foldl (chainF c1) (S.res0 z1, List.replicate z1.length (0 : V))).2.map
      (fun v => (S.postMean v, S.postLogvar v))).getD s (0, 0)
    = ((S.stack.foldl (chainF c2) (S.res0 z2, List.replicate z2.length (0 : V))).2.map
      (fun v => (S.postMean v, S.postLogvar v))).getD s (0, 0)
  by_cases hin : s < (S.stack.foldl (chainF c1) (S.res0 z1, List.replicate z1.length (0 : V))).2.length
  · rw [getD_map_in _ _ _ _ 0 hin, getD_map_in _ _ _ _ 0 ((hflen s hs).mp hin), hfacc s hs]
  · rw [getD_eq_default _ _ _ (by simpa using hin),
      getD_eq_default _ _ _ (by simpa using ((hflen s hs).not.mp hin))]

/-- Prefix stability: row `t` of the stack output on the `(t+1)`-prefix of the
signal and conditioning equals row `t` of the output on the full inputs. -/
theorem stack_forward_take [AddCommMonoid V] [Zero γ] [LinearOrderedCommRing R]
    (S : ResidualStack γ V R W k) (z : List (Row R W)) (c : List γ) {t : ℕ}
    (ht : t < z.length) :
    (S.forward (z.take (t + 1)) (c.take (t + 1))).getD t (0, 0)
      = (S.forward z c).getD t (0, 0) := by
  refine stack_forward_agree S ?_ ?_ ?_ t le_rfl
  · intro s hs
    simp only [List.length_take]
    omega
  · intro s hs
    exact getD_take_lt z (t + 1) s 0 (by omega)
  · intro s hs
    exact getD_take_lt c (t + 1) s 0 (by omega)

theorem getD_drop {α : Type*} (l : List α) (n i : ℕ) (d : α) :
    (l.drop n).getD i d = l.getD (n + i) d := by
  by_cases h : n + i < l.length
  · rw [List.getD_eq_getElem _ _ (by simp; omega), List.getD_eq_getElem _ _ h,
      List.getElem_drop]
  · rw [getD_eq_default _ _ _ (by simp; omega), getD_eq_default _ _ _ (by omega)]

/-- Reading the two-row-padded signal (modules.py line 211) at height `t` is
reading the unpadded signal at integer height `t - 2`. -/
theorem getD_pad2 {α : Type*} [Zero α] (l : List α) (t : ℕ) :
    (List.replicate 2 (0 : α) ++ l).getD t 0 = zat l ((t : ℤ) - 2) := by
  rcases t with _ | _ | n
  · show ((0:α) :: (0:α) :: l).getD 0 0 = zat l (0 - 2)
    rw [zat_neg _ _ (by omega)]
    simp
  · show ((0:α) :: (0:α) :: l).getD 1 0 = zat l (1 - 2)
    rw [zat_neg _ _ (by omega)]
    simp
  · show ((0:α) :: (0:α) :: l).getD (n + 2) 0 = zat l ((n + 2 : ℕ) - 2)
    have h2 : ((n + 2 : ℕ) : ℤ) - 2 = (n : ℤ) := by push_cast; ring
    rw [h2, zat_coe]
    simp [List.getD_cons_succ]

/-- Writing the two-row-padded signal at height `t + 2` writes the unpadded
signal at height `t` (modules.py line 235). -/
theorem set_pad2 {α : Type*} [Zero α] (l : List α) (t : ℕ) (v : α) :
    (List.replicate 2 (0 : α) ++ l).set (t + 2) v
      = List.replicate 2 (0 : α) ++ l.set t v := rfl

/-- The naive inversion loop preserves the height of the signal. -/
theorem length_naiveFold [AddCommMonoid V] [Zero γ] [LinearOrderedCommRing R]
    (e : R → R) (S : ResidualStack γ V R W k) (c : List γ) :
    ∀ (t : ℕ) (z : List (Row R W)),
      ((List.range t).foldl (WaveFlow.naiveStep e S c) z).length = z.length := by
  intro t
  induction t with
  | zero => intro z; rfl
  | succ n ih =>
    intro z
    rw [List.range_succ, List.foldl_append, List.foldl_cons, List.foldl_nil,
      WaveFlow.naiveStep]
    simp only [List.length_set]
    exact ih z

/-- Rows already produced by the naive inversion loop are never touched
again: each later step writes only its own (strictly higher) row. -/
theorem naiveFold_stable [AddCommMonoid V] [Zero γ] [LinearOrderedCommRing R]
    (e : R → R) (S : ResidualStack γ V R W k) (c : List γ) :
    ∀ (d t : ℕ) (z : List (Row R W)) (s : ℕ), s < t →
      ((List.range (t + d)).foldl (WaveFlow.naiveStep e S c) z).getD s 0
        = ((List.range t).foldl (WaveFlow.naiveStep e S c) z).getD s 0 := by
  intro d
  induction d with
  | zero => intro t z s _; rfl
  | succ n ih =>
    intro t z s hs
    rw [show t + (n + 1) = (t + n) + 1 by ring, List.range_succ, List.foldl_append,
      List.foldl_cons, List.foldl_nil, WaveFlow.naiveStep]
    rw [getD_set_ne _ _ _ _ _ (by omega)]
    exact ih t z s hs

theorem forwardInc_eq [AddCommMonoid V] [Zero γ] (b : ResidualBlock γ V k)
    (w : List V) (cr : γ) :
    b.forwardInc w cr
      = (b.resconv (b.gate
          ((((List.finRange k).map (fun u =>
              b.tapsA u (zat w ((u.1 * b.dilation : ℕ) : ℤ))))).sum + b.cdtA cr)
          ((((List.finRange k).map (fun u =>
              b.tapsB u (zat w ((u.1 * b.dilation : ℕ) : ℤ))))).sum + b.cdtB cr))
            + w.getD (w.length - 1) 0,
         b.skipconv (b.gate
          ((((List.finRange k).map (fun u =>
              b.tapsA u (zat w ((u.1 * b.dilation : ℕ) : ℤ))))).sum + b.cdtA cr)
          ((((List.finRange k).map (fun u =>
              b.tapsB u (zat w ((u.1 * b.dilation : ℕ) : ℤ))))).sum + b.cdtB cr))) := rfl

/-- One streaming block step against a matching cache: pushing the current
residual row and running the block in incremental mode yields exactly row `t`
of the parallel block outputs, and the pushed buffer matches at horizon
`t + 1`. -/
theorem forwardInc_push [AddCommMonoid V] [Zero γ] (b : ResidualBlock γ V k)
    (ct : CircularTensor V) (inp : List V) (c : List γ) (t : ℕ)
    (hwf : cacheWF ct b)
    (hwin : ∀ j, j < ct.tensor.length →
      ct.window.getD j 0 = zat inp ((t : ℤ) - (ct.tensor.length : ℤ) + (j : ℤ)))
    (ht : t < inp.length) :
    b.forwardInc (ct.push (inp.getD t 0)).window (c.getD t 0)
        = ((b.forward inp c).1.getD t 0, (b.forward inp c).2.getD t 0)
    ∧ cacheWF (ct.push (inp.getD t 0)) b
    ∧ (∀ j, j < (ct.push (inp.getD t 0)).tensor.length →
        (ct.push (inp.getD t 0)).window.getD j 0
          = zat inp (((t + 1 : ℕ) : ℤ)
              - ((ct.push (inp.getD t 0)).tensor.length : ℤ) + (j : ℤ))) := by
  obtain ⟨hL, hv⟩ := hwf
  have h0 : 0 < ct.tensor.length := by omega
  have hwl : ct.window.length = ct.tensor.length := window_length ct
  have hptl : (ct.push (inp.getD t 0)).tensor.length = ct.tensor.length :=
    push_tensor_length ct _
  have hpw : (ct.push (inp.getD t 0)).window = ct.window.drop 1 ++ [inp.getD t 0] :=
    window_push ct _ hv
  have hpwl : (ct.push (inp.getD t 0)).window.length = ct.tensor.length := by
    rw [window_length, hptl]
  have hwin' : ∀ j, j < ct.tensor.length →
      (ct.push (inp.getD t 0)).window.getD j 0
        = zat inp ((t : ℤ) + 1 - (ct.tensor.length : ℤ) + (j : ℤ)) := by
    intro j hj
    rw [hpw]
    by_cases hje : j < ct.tensor.length - 1
    · rw [List.getD_append _ _ _ _ (by simp [hwl]; omega), getD_drop,
        hwin (1 + j) (by omega)]
      congr 1
      push_cast
      ring
    · have hje' : j = ct.tensor.length - 1 := by omega
      have hlen : (ct.window.drop 1).length = ct.tensor.length - 1 := by
        simp [hwl]
      rw [List.getD_append_right _ _ _ _ (by omega), hlen, hje']
      simp only [Nat.sub_self, List.getD_cons_zero]
      rw [← zat_coe]
      congr 1
      omega
  refine ⟨?_, ⟨by rw [hptl]; exact hL, by
    show (ct.push (inp.getD t 0)).cursor < (ct.push (inp.getD t 0)).tensor.length
    have := push_valid ct (inp.getD t 0) h0
    exact this⟩, ?_⟩
  · -- streaming output = parallel row t
    have hsumA : ((List.finRange k).map (fun u =>
        b.tapsA u (zat (ct.push (inp.getD t 0)).window ((u.1 * b.dilation : ℕ) : ℤ)))).sum
      = ((List.finRange k).map (fun u =>
        b.tapsA u (zat inp ((t : ℤ) - ((k - 1 - u.1 : ℕ) : ℤ) * (b.dilation : ℤ))))).sum := by
      refine congrArg List.sum (List.map_congr_left (fun u _ => ?_))
      congr 1
      have hud : u.1 * b.dilation < ct.tensor.length := by
        have : u.1 * b.dilation ≤ (k - 1) * b.dilation :=
          Nat.mul_le_mul_right _ (by omega)
        omega
      rw [zat_coe, hwin' _ hud]
      congr 1
      have hkc : ((k - 1 - u.1 : ℕ) : ℤ) = ((k - 1 : ℕ) : ℤ) - (u.1 : ℤ) := by
        have : u.1 < k := u.2
        omega
      have hLc : ((ct.tensor.length : ℕ) : ℤ)
          = ((k - 1 : ℕ) : ℤ) * (b.dilation : ℤ) + 1 := by
        rw [hL]
        push_cast
        ring
      rw [hkc, hLc]
      push_cast
      ring
    have hsumB : ((List.finRange k).map (fun u =>
        b.tapsB u (zat (ct.push (inp.getD t 0)).window ((u.1 * b.dilation : ℕ) : ℤ)))).sum
      = ((List.finRange k).map (fun u =>
        b.tapsB u (zat inp ((t : ℤ) - ((k - 1 - u.1 : ℕ) : ℤ) * (b.dilation : ℤ))))).sum := by
      refine congrArg List.sum (List.map_congr_left (fun u _ => ?_))
      congr 1
      have hud : u.1 * b.dilation < ct.tensor.length := by
        have : u.1 * b.dilation ≤ (k - 1) * b.dilation :=
          Nat.mul_le_mul_right _ (by omega)
        omega
      rw [zat_coe, hwin' _ hud]
      congr 1
      have hkc : ((k - 1 - u.1 : ℕ) : ℤ) = ((k - 1 : ℕ) : ℤ) - (u.1 : ℤ) := by
        have : u.1 < k := u.2
        omega
      have hLc : ((ct.tensor.length : ℕ) : ℤ)
          = ((k - 1 : ℕ) : ℤ) * (b.dilation : ℤ) + 1 := by
        rw [hL]
        push_cast
        ring
      rw [hkc, hLc]
      push_cast
      ring
    have hlast : (ct.push (inp.getD t 0)).window.getD
        ((ct.push (inp.getD t 0)).window.length - 1) 0 = inp.getD t 0 := by
      rw [hpwl, hwin' _ (by omega), ← zat_coe]
      congr 1
      omega
    rw [forwardInc_eq, hsumA, hsumB, hlast,
      block_forward_fst, block_forward_snd,
      getD_ofFn_in _ _ _ ht, getD_ofFn_in _ _ _ ht]
    rw [ResidualBlock.gateRow]
    congr 2
    rw [List.get_eq_getElem, ← List.getD_eq_getElem inp 0 ht]
  · intro j hj
    rw [hptl] at hj ⊢
    rw [hwin' j hj]
    congr 1

theorem blockFoldAR_cons [AddCommMonoid V] [Zero γ] (b : ResidualBlock γ V k)
    (bs : List (ResidualBlock γ V k)) (ct : CircularTensor V)
    (cts : List (CircularTensor V)) (res : V) (cr : γ) :
    blockFoldAR (b :: bs) (ct :: cts) res cr
      = ((b.forwardInc (ct.push res).window cr).2
          + (blockFoldAR bs cts (b.forwardInc (ct.push res).window cr).1 cr).1,
         ct.push res
          :: (blockFoldAR bs cts (b.forwardInc (ct.push res).window cr).1 cr).2) := rfl

/-- One step of the streaming block chain against matching caches computes
exactly row `t` of the parallel skip accumulator, and the updated caches
match at horizon `t + 1`. -/
theorem blockFoldAR_step [AddCommMonoid V] [Zero γ] (c : List γ) (t : ℕ) :
    ∀ (bs : List (ResidualBlock γ V k)) (cts : List (CircularTensor V))
      (inp acc : List V),
      windowsMatch c t bs cts inp → t < inp.length → acc.length = inp.length →
      ((bs.foldl (chainF c) (inp, acc)).2.getD t 0
        = acc.getD t 0 + (blockFoldAR bs cts (inp.getD t 0) (c.getD t 0)).1)
      ∧ windowsMatch c (t + 1) bs (blockFoldAR bs cts (inp.getD t 0) (c.getD t 0)).2 inp := by
  intro bs
  induction bs with
  | nil =>
    intro cts inp acc hwm ht hacc
    cases cts with
    | nil =>
      refine ⟨by simp [blockFoldAR], ?_⟩
      simp [windowsMatch]
    | cons ct cts => simp [windowsMatch] at hwm
  | cons b bs ih =>
    intro cts inp acc hwm ht hacc
    cases cts with
    | nil => simp [windowsMatch] at hwm
    | cons ct cts =>
      obtain ⟨hwf, hwin, hrest⟩ := hwm
      obtain ⟨hval, hwfp, hwinp⟩ := forwardInc_push b ct inp c t hwf hwin ht
      have hfstlen : (b.forward inp c).1.length = inp.length := by
        rw [block_forward_fst, List.length_ofFn]
      have hsndlen : (b.forward inp c).2.length = inp.length := by
        rw [block_forward_snd, List.length_ofFn]
      have hziplen : (List.zipWith (· + ·) acc (b.forward inp c).2).length
          = (b.forward inp c).1.length := by
        rw [List.length_zipWith, hacc, hsndlen, hfstlen, min_self]
      obtain ⟨ih1, ih2⟩ := ih cts (b.forward inp c).1
        (List.zipWith (· + ·) acc (b.forward inp c).2) hrest
        (by omega) hziplen
      rw [blockFoldAR_cons]
      simp only [hval]
      constructor
      · rw [List.foldl_cons]
        show ((bs.foldl (chainF c)
            ((b.forward inp c).1, List.zipWith (· + ·) acc (b.forward inp c).2)).2).getD t 0
          = acc.getD t 0 + ((b.forward inp c).2.getD t 0
            + (blockFoldAR bs cts ((b.forward inp c).1.getD t 0) (c.getD t 0)).1)
        rw [ih1]
        have hzget : (List.zipWith (· + ·) acc (b.forward inp c).2).getD t 0
            = acc.getD t 0 + (b.forward inp c).2.getD t 0 := by
          rw [List.getD_eq_getElem _ _ (by omega), List.getElem_zipWith,
            ← List.getD_eq_getElem acc 0 (by omega),
            ← List.getD_eq_getElem _ 0 (by omega)]
        rw [hzget, add_assoc]
      · exact ⟨hwfp, hwinp, ih2⟩

/-- The fresh per-block buffers allocated on first synthesis match every
residual stream at horizon `0`: they read as all-zero windows, exactly the
zero padding the parallel convolutions see below row `0`. -/
theorem windowsMatch_fresh [AddCommMonoid V] [Zero γ] (c : List γ) :
    ∀ (bs : List (ResidualBlock γ V k)) (inp : List V),
      windowsMatch c 0 bs (bs.map (fun b =>
        (⟨List.replicate ((k - 1) * b.dilation + 1) (0 : V), 0⟩ : CircularTensor V))) inp := by
  intro bs
  induction bs with
  | nil => intro inp; simp [windowsMatch]
  | cons b bs ih =>
    intro inp
    refine ⟨⟨by simp, by simp [CircularTensor.Valid]⟩, ?_, ih _⟩
    intro j hj
    have hlen : ((⟨List.replicate ((k - 1) * b.dilation + 1) (0 : V), 0⟩ :
        CircularTensor V)).tensor.length = (k - 1) * b.dilation + 1 := by simp
    rw [hlen] at hj ⊢
    rw [fresh_window, getD_replicate_zero]
    symm
    apply zat_neg
    push_cast
    omega

/-- Row `t` of the parallel stack output is the output projections applied to
row `t` of the skip accumulator. -/
theorem stack_forward_row [AddCommMonoid V] [Zero γ] [LinearOrderedCommRing R]
    (S : ResidualStack γ V R W k) (z : List (Row R W)) (c : List γ) (t : ℕ)
    (ht : t < z.length) :
    (S.forward z c).getD t (0, 0)
      = (S.postMean ((S.stack.foldl (chainF c)
            (S.res0 z, List.replicate z.length (0 : V))).2.getD t 0),
         S.postLogvar ((S.stack.foldl (chainF c)
            (S.res0 z, List.replicate z.length (0 : V))).2.getD t 0)) := by
  have hlen : (S.stack.foldl (chainF c)
      (S.res0 z, List.replicate z.length (0 : V))).2.length = z.length := by
    have h := length_stack_forward S z c
    rw [ResidualStack.forward] at h
    simpa using h
  show ((S.stack.foldl (chainF c)
      (S.res0 z, List.replicate z.length (0 : V))).2.map
      (fun v => (S.postMean v, S.postLogvar v))).getD t (0, 0) = _
  rw [getD_map_in _ _ _ _ 0 (by omega)]

/-- The cached autoregressive inversion of one flow on a fresh cache computes
exactly the naive per-step inversion (modules.py lines 173–238 against lines
371–377). -/
theorem arTransform_eq_naiveLoop [AddCommMonoid V] [Zero γ] [LinearOrderedCommRing R]
    (e : R → R) (S : ResidualStack γ V R W k) (c : List γ) (hSteps : ℕ)
    (z : List (Row R W)) (hz : z.length = hSteps) :
    (S.arTransform e hSteps none z c).1 = WaveFlow.naiveLoop e S c hSteps z := by
  have hzfinlen : ((List.range hSteps).foldl (WaveFlow.naiveStep e S c) z).length
      = hSteps := by rw [length_naiveFold, hz]
  have hres0len : (S.res0 ((List.range hSteps).foldl (WaveFlow.naiveStep e S c) z)).length
      = hSteps := by rw [ResidualStack.res0, List.length_ofFn, hzfinlen]
  have key : ∀ t, t ≤ hSteps →
      ((List.range t).foldl (S.arStep e c)
        (List.replicate 2 (0 : Row R W) ++ z,
         S.stack.map (fun b =>
          (⟨List.replicate ((k - 1) * b.dilation + 1) (0 : V), 0⟩ : CircularTensor V)))).1
        = List.replicate 2 (0 : Row R W)
            ++ (List.range t).foldl (WaveFlow.naiveStep e S c) z
      ∧ windowsMatch c t S.stack
          ((List.range t).foldl (S.arStep e c)
            (List.replicate 2 (0 : Row R W) ++ z,
             S.stack.map (fun b =>
              (⟨List.replicate ((k - 1) * b.dilation + 1) (0 : V), 0⟩ : CircularTensor V)))).2
          (S.res0 ((List.range hSteps).foldl (WaveFlow.naiveStep e S c) z)) := by
    intro t
    induction t with
    | zero => intro _; exact ⟨rfl, windowsMatch_fresh c S.stack _⟩
    | succ n ihn =>
      intro hn1
      obtain ⟨ih1, ih2⟩ := ihn (by omega)
      have hlen_n : ((List.range n).foldl (WaveFlow.naiveStep e S c) z).length = hSteps := by
        rw [length_naiveFold, hz]
      have hstab : ∀ s, s < n →
          ((List.range n).foldl (WaveFlow.naiveStep e S c) z).getD s 0
            = ((List.range hSteps).foldl (WaveFlow.naiveStep e S c) z).getD s 0 := by
        intro s hs
        rw [show hSteps = n + (hSteps - n) by omega, naiveFold_stable e S c _ _ _ _ hs]
      have hzat : ∀ i : ℤ, i < (n : ℤ) →
          zat ((List.range n).foldl (WaveFlow.naiveStep e S c) z) i
            = zat ((List.range hSteps).foldl (WaveFlow.naiveStep e S c) z) i := by
        intro i hi
        rcases lt_or_le i 0 with hneg | hpos
        · rw [zat_neg _ _ hneg, zat_neg _ _ hneg]
        · obtain ⟨m, rfl⟩ := Int.eq_ofNat_of_zero_le hpos
          rw [zat_coe, zat_coe]
          exact hstab m (by omega)
      rw [List.range_succ, List.foldl_append, List.foldl_cons, List.foldl_nil]
      rw [ResidualStack.arStep]
      rw [ih1]
      have hr0 : S.tanhRes
          (S.fc0 ((List.replicate 2 (0 : Row R W)
              ++ (List.range n).foldl (WaveFlow.naiveStep e S c) z).getD n 0)
           + S.fc1 ((List.replicate 2 (0 : Row R W)
              ++ (List.range n).foldl (WaveFlow.naiveStep e S c) z).getD (n + 1) 0))
          = (S.res0 ((List.range hSteps).foldl (WaveFlow.naiveStep e S c) z)).getD n 0 := by
        rw [getD_pad2, getD_pad2]
        rw [hzat _ (by omega), hzat _ (by push_cast; omega)]
        rw [ResidualStack.res0, getD_ofFn_in _ _ _ (by rw [hzfinlen]; omega)]
        congr 2
        push_cast
        ring
      rw [hr0]
      obtain ⟨hbl1, hbl2⟩ := blockFoldAR_step c n S.stack
        ((List.range n).foldl (S.arStep e c)
          (List.replicate 2 (0 : Row R W) ++ z,
           S.stack.map (fun b =>
            (⟨List.replicate ((k - 1) * b.dilation + 1) (0 : V), 0⟩ : CircularTensor V)))).2
        (S.res0 ((List.range hSteps).foldl (WaveFlow.naiveStep e S c) z))
        (List.replicate ((List.range hSteps).foldl (WaveFlow.naiveStep e S c) z).length
          (0 : V))
        ih2 (by omega) (by rw [List.length_replicate, ResidualStack.res0, List.length_ofFn])
      refine ⟨?_, hbl2⟩
      -- the updated signals agree
      rw [List.foldl_append, List.foldl_cons, List.foldl_nil]
      simp only [WaveFlow.naiveStep]
      have hml : (S.forward
          (((List.range n).foldl (WaveFlow.naiveStep e S c) z).take (n + 1))
          (c.take (n + 1))).length = n + 1 := by
        rw [length_stack_forward, List.length_take, hlen_n]
        omega
      have hp : (S.forward
          (((List.range n).foldl (WaveFlow.naiveStep e S c) z).take (n + 1))
          (c.take (n + 1))).getD
            ((S.forward
              (((List.range n).foldl (WaveFlow.naiveStep e S c) z).take (n + 1))
              (c.take (n + 1))).length - 1) 0
          = (S.postMean ((blockFoldAR S.stack
              ((List.range n).foldl (S.arStep e c)
                (List.replicate 2 (0 : Row R W) ++ z,
                 S.stack.map (fun b =>
                  (⟨List.replicate ((k - 1) * b.dilation + 1) (0 : V), 0⟩ :
                    CircularTensor V)))).2
              ((S.res0 ((List.range hSteps).foldl (WaveFlow.naiveStep e S c) z)).getD n 0)
              (c.getD n 0)).1),
             S.postLogvar ((blockFoldAR S.stack
              ((List.range n).foldl (S.arStep e c)
                (List.replicate 2 (0 : Row R W) ++ z,
                 S.stack.map (fun b =>
                  (⟨List.replicate ((k - 1) * b.dilation + 1) (0 : V), 0⟩ :
                    CircularTensor V)))).2
              ((S.res0 ((List.range hSteps).foldl (WaveFlow.naiveStep e S c) z)).getD n 0)
              (c.getD n 0)).1)) := by
        rw [hml]
        simp only [Nat.add_sub_cancel]
        rw [← Prod.mk_zero_zero]
        rw [stack_forward_take S _ _ (by rw [hlen_n]; omega)]
        rw [stack_forward_agree S
          (by intro s _; rw [hlen_n, hzfinlen])
          hstab (fun s _ => rfl) n le_rfl]
        rw [stack_forward_row S _ _ _ (by rw [hzfinlen]; omega)]
        rw [hbl1, getD_replicate_zero, zero_add]
      rw [hp]
      rw [getD_pad2, set_pad2]
      congr 1
      have hcur : zat ((List.range n).foldl (WaveFlow.naiveStep e S c) z)
          (((n + 2 : ℕ) : ℤ) - 2)
          = ((List.range n).foldl (WaveFlow.naiveStep e S c) z).getD n 0 := by
        rw [show ((n + 2 : ℕ) : ℤ) - 2 = ((n : ℕ) : ℤ) by push_cast; ring, zat_coe]
      rw [hcur]
      rfl
  have harT : (S.arTransform e hSteps none z c).1
      = ((List.range hSteps).foldl (S.arStep e c)
          (List.replicate 2 (0 : Row R W) ++ z,
           S.stack.map (fun b =>
            (⟨List.replicate ((k - 1) * b.dilation + 1) (0 : V), 0⟩ :
              CircularTensor V)))).1.drop 2 := rfl
  rw [harT, (key hSteps le_rfl).1]
  rw [WaveFlow.naiveLoop]
  rw [List.drop_append_of_le_length (by simp)]
  simp

theorem length_synth_flip {α : Type*} (i : ℕ) (x : List α) :
    (synth_flip i x).length = x.length := by
  unfold synth_flip
  by_cases h : 4 < i
  · rw [if_pos h, length_full_flip]
  · rw [if_neg h, length_half_flip]

theorem length_naiveLoop [AddCommMonoid V] [Zero γ] [LinearOrderedCommRing R]
    (e : R → R) (S : ResidualStack γ V R W k) (c : List γ) (hSteps : ℕ)
    (z : List (Row R W)) :
    (WaveFlow.naiveLoop e S c hSteps z).length = z.length :=
  length_naiveFold e S c hSteps z

theorem fastFold_cons {γ0 : Type u} {V : Type v} {R : Type w} {k W : ℕ}
    [AddCommMonoid V] [Zero γ0] [LinearOrderedCommRing R] (e : R → R) (hSteps : ℕ)
    (p : ℕ × (ResidualStack (Fin W → γ0) V R W k × Option (List (CircularTensor V))))
    (ps : List (ℕ × (ResidualStack (Fin W → γ0) V R W k ×
      Option (List (CircularTensor V)))))
    (st : List (Row R W) × List (Fin W → γ0) × List (List (CircularTensor V))) :
    WaveFlow.fastFold e hSteps (p :: ps) st
      = WaveFlow.fastFold e hSteps ps
          ((p.2.1.arTransform e hSteps p.2.2 (synth_flip p.1 st.1) (synth_flip p.1 st.2.1)).1,
           synth_flip p.1 st.2.1,
           (p.2.1.arTransform e hSteps p.2.2
              (synth_flip p.1 st.1) (synth_flip p.1 st.2.1)).2 :: st.2.2) := rfl

/-- On fresh (`None`) cache states, the cached reversed-flow loop of
`synthesize_fast` tracks `synthesize`'s naive reversed-flow loop exactly:
same signal and same permuted conditioning after every flow. -/
theorem fastFold_eq_naive {γ0 : Type u} {V : Type v} {R : Type w} {k W : ℕ}
    [AddCommMonoid V] [Zero γ0] [LinearOrderedCommRing R] (e : R → R) (hSteps : ℕ) :
    ∀ (ps : List (ℕ × (ResidualStack (Fin W → γ0) V R W k ×
        Option (List (CircularTensor V)))))
      (qs : List (ℕ × ResidualStack (Fin W → γ0) V R W k)),
      List.Forall₂ (fun p q => p.1 = q.1 ∧ p.2.1 = q.2 ∧ p.2.2 = none) ps qs →
      ∀ (z : List (Row R W)) (c : List (Fin W → γ0))
        (hist : List (List (CircularTensor V))), z.length = hSteps →
        (WaveFlow.fastFold e hSteps ps (z, c, hist)).1
            = (qs.foldl
                (fun (st : List (Row R W) × List (Fin W → γ0)) p =>
                  (WaveFlow.naiveLoop e p.2 (synth_flip p.1 st.2) hSteps
                    (synth_flip p.1 st.1), synth_flip p.1 st.2)) (z, c)).1
        ∧ (WaveFlow.fastFold e hSteps ps (z, c, hist)).2.1
            = (qs.foldl
                (fun (st : List (Row R W) × List (Fin W → γ0)) p =>
                  (WaveFlow.naiveLoop e p.2 (synth_flip p.1 st.2) hSteps
                    (synth_flip p.1 st.1), synth_flip p.1 st.2)) (z, c)).2 := by
  intro ps qs hrel
  induction hrel with
  | nil =>
    intro z c hist _
    exact ⟨rfl, rfl⟩
  | @cons p q ps qs hpq htail ih =>
    intro z c hist hz
    obtain ⟨hi, hs, hcache⟩ := hpq
    rw [fastFold_cons, List.foldl_cons]
    have hstep : (p.2.1.arTransform e hSteps p.2.2
          (synth_flip p.1 z) (synth_flip p.1 c)).1
        = WaveFlow.naiveLoop e q.2 (synth_flip q.1 c) hSteps (synth_flip q.1 z) := by
      rw [hi, hs, hcache]
      exact arTransform_eq_naiveLoop e q.2 (synth_flip q.1 c) hSteps
        (synth_flip q.1 z) (by rw [length_synth_flip, hz])
    show (WaveFlow.fastFold e hSteps ps
        ((p.2.1.arTransform e hSteps p.2.2 (synth_flip p.1 z) (synth_flip p.1 c)).1,
         synth_flip p.1 c, _)).1 = _
      ∧ (WaveFlow.fastFold e hSteps ps
        ((p.2.1.arTransform e hSteps p.2.2 (synth_flip p.1 z) (synth_flip p.1 c)).1,
         synth_flip p.1 c, _)).2.1 = _
    rw [hstep, hi]
    exact ih (WaveFlow.naiveLoop e q.2 (synth_flip q.1 c) hSteps (synth_flip q.1 z))
      (synth_flip q.1 c) _
      (by rw [length_naiveLoop, length_synth_flip, hz])

/-- A flow list zipped against equally many fresh (`None`) cache states is
pairwise aligned with the bare flow list. -/
theorem zip_replicate_none {γ0 : Type u} {V : Type v} {R : Type w} {k W : ℕ}
    [AddCommMonoid V] [Zero γ0] [LinearOrderedCommRing R] :
    ∀ (flows : List (ResidualStack (Fin W → γ0) V R W k)),
      List.Forall₂
        (fun (a : ResidualStack (Fin W → γ0) V R W k ×
            Option (List (CircularTensor V))) b => a.1 = b ∧ a.2 = none)
        (flows.zip (List.replicate flows.length none)) flows := by
  intro flows
  induction flows with
  | nil => exact List.Forall₂.nil
  | cons f fs ih =>
    simp only [List.length_cons, List.replicate_succ, List.zip_cons_cons]
    exact List.Forall₂.cons ⟨rfl, rfl⟩ ih

/-- The fast-synthesis loop is insensitive to cache states that make each
flow's `arTransform` produce the same signal. -/
theorem fastFold_congr {γ0 : Type u} {V : Type v} {R : Type w} {k W : ℕ}
    [AddCommMonoid V] [Zero γ0] [LinearOrderedCommRing R] (e : R → R) (hSteps : ℕ)
    (ps qs : List (ℕ × (ResidualStack (Fin W → γ0) V R W k ×
      Option (List (CircularTensor V)))))
    (hrel : List.Forall₂ (fun p q => p.1 = q.1 ∧
      ∀ (z : List (Row R W)) (c : List (Fin W → γ0)),
        (p.2.1.arTransform e hSteps p.2.2 z c).1
          = (q.2.1.arTransform e hSteps q.2.2 z c).1) ps qs) :
    ∀ (st1 st2 : List (Row R W) × List (Fin W → γ0) × List (List (CircularTensor V))),
      st1.1 = st2.1 → st1.2.1 = st2.2.1 →
      (WaveFlow.fastFold e hSteps ps st1).1 = (WaveFlow.fastFold e hSteps qs st2).1 ∧
      (WaveFlow.fastFold e hSteps ps st1).2.1
        = (WaveFlow.fastFold e hSteps qs st2).2.1 := by
  induction hrel with
  | nil =>
    intro st1 st2 h1 h2
    exact ⟨h1, h2⟩
  | @cons p q ps qs hpq htail ih =>
    intro st1 st2 h1 h2
    have hz' : synth_flip p.1 st1.1 = synth_flip q.1 st2.1 := by rw [hpq.1, h1]
    have hc' : synth_flip p.1 st1.2.1 = synth_flip q.1 st2.2.1 := by rw [hpq.1, h2]
    simp only [WaveFlow.fastFold, List.foldl_cons]
    refine ih _ _ ?_ ?_
    · show (p.2.1.arTransform e hSteps p.2.2 (synth_flip p.1 st1.1)
          (synth_flip p.1 st1.2.1)).1
        = (q.2.1.arTransform e hSteps q.2.2 (synth_flip q.1 st2.1)
          (synth_flip q.1 st2.2.1)).1
      rw [← hz', ← hc']
      exact hpq.2 _ _
    · exact hc'

/-- Every cache state the fast-synthesis loop leaves behind is well-shaped
for its flow, and the collected list lines up with the processed flows in
original order. -/
theorem fastFold_states_wf {γ0 : Type u} {V : Type v} {R : Type w} {k W : ℕ}
    [AddCommMonoid V] [Zero γ0] [LinearOrderedCommRing R] (e : R → R) (hSteps : ℕ) :
    ∀ (ps : List (ℕ × (ResidualStack (Fin W → γ0) V R W k ×
        Option (List (CircularTensor V)))))
      (st : List (Row R W) × List (Fin W → γ0) × List (List (CircularTensor V)))
      (fsAcc : List (ResidualStack (Fin W → γ0) V R W k)),
      (∀ p ∈ ps, p.2.2 = none ∨ ∃ cs, p.2.2 = some cs ∧ StateWF p.2.1 cs) →
      List.Forall₂ (fun cs f => StateWF f cs) st.2.2 fsAcc →
      List.Forall₂ (fun cs f => StateWF f cs) (WaveFlow.fastFold e hSteps ps st).2.2
        ((ps.map (fun p => p.2.1)).reverse ++ fsAcc) := by
  intro ps
  induction ps with
  | nil =>
    intro st fsAcc _ hacc
    simpa [WaveFlow.fastFold] using hacc
  | cons p ps ih =>
    intro st fsAcc hp hacc
    simp only [WaveFlow.fastFold, List.foldl_cons, List.map_cons, List.reverse_cons,
      List.append_assoc]
    have hnew : StateWF p.2.1 ((p.2.1.arTransform e hSteps p.2.2 (synth_flip p.1 st.1)
        (synth_flip p.1 st.2.1)).2) := by
      apply arTransform_wf
      intro cs hcs
      rcases hp p (List.mem_cons_self p ps) with hnone | ⟨cs', hsome, hwf⟩
      · rw [hnone] at hcs
        exact absurd hcs (by simp)
      · rw [hsome] at hcs
        obtain rfl := Option.some.inj hcs
        exact hwf
    exact ih _ _ (fun q hq => hp q (List.mem_cons_of_mem p hq))
      (List.Forall₂.cons hnew hacc)

theorem enumFrom_forall₂ {α β : Type*} (Q : α → β → Prop)
    (l1 : List α) (l2 : List β) (h : List.Forall₂ Q l1 l2) :
    ∀ s, List.Forall₂ (fun p q => p.1 = q.1 ∧ Q p.2 q.2)
      (l1.enumFrom s) (l2.enumFrom s) := by
  induction h with
  | nil => intro s; exact List.Forall₂.nil
  | @cons a b t1 t2 hab ht ih =>
    intro s
    simp only [List.enumFrom]
    exact List.Forall₂.cons ⟨rfl, hab⟩ (ih (s + 1))

theorem enum_forall₂ {α β : Type*} (Q : α → β → Prop)
    (l1 : List α) (l2 : List β) (h : List.Forall₂ Q l1 l2) :
    List.Forall₂ (fun p q => p.1 = q.1 ∧ Q p.2 q.2) l1.enum l2.enum :=
  enumFrom_forall₂ Q l1 l2 h 0

/-- A flow-aligned list of well-shaped cache states makes each flow's
resumed `arTransform` agree with the fresh one, pairwise along the zip. -/
theorem zip_states_rel {γ0 : Type u} {V : Type v} {R : Type w} {k W : ℕ}
    [AddCommMonoid V] [Zero γ0] [LinearOrderedCommRing R] (e : R → R) (hSteps : ℕ) :
    ∀ (flows : List (ResidualStack (Fin W → γ0) V R W k))
      (sts : List (List (CircularTensor V))),
      List.Forall₂ (fun cs f => StateWF f cs) sts flows →
      List.Forall₂ (fun a b => a.1 = b.1 ∧
        ∀ (z : List (Row R W)) (c : List (Fin W → γ0)),
          (a.1.arTransform e hSteps a.2 z c).1 = (b.1.arTransform e hSteps b.2 z c).1)
        (flows.zip (sts.map some))
        (flows.zip (List.replicate flows.length none)) := by
  intro flows sts h
  induction h with
  | nil => exact List.Forall₂.nil
  | @cons cs f t1 t2 hcf ht ih =>
    simp only [List.map_cons, List.zip_cons_cons, List.length_cons, List.replicate_succ]
    refine List.Forall₂.cons ⟨rfl, ?_⟩ ih
    intro z c
    exact arTransform_resume_eq e f hSteps z c cs hcf

/-- Claim C6 (amended, operative part): calling `synthesize_fast` a second
time on the same model instance (after any first call that started with
fresh caches) yields the same result as calling it once on a freshly
constructed model with the second conditioning: the per-block reset zeroes
the buffer contents in place — reusing the buffers, not reallocating — and
although the write cursor is *not* reset (see the counterexample), a zeroed
ring buffer produces the same windows from any valid cursor position, so no
state from the first synthesis influences the second. -/
theorem claim_C6 {γ0 : Type u} {V : Type v} {R : Type w} {k : ℕ}
    [AddCommMonoid V] [Zero γ0] [LinearOrderedCommRing R] (e : R → R) (h W : ℕ)
    (flows : List (ResidualStack (Fin W → γ0) V R W k))
    (craw1 craw2 : List γ0) (t1 t2 : R) (noise1 noise2 : List (Row R W)) :
    (WaveFlow.synthesize_fast e h W flows
        ((WaveFlow.synthesize_fast e h W flows (List.replicate flows.length none)
            craw1 t1 noise1).2.map some) craw2 t2 noise2).1
      = (WaveFlow.synthesize_fast e h W flows (List.replicate flows.length none)
          craw2 t2 noise2).1 := by
  have hmap : ∀ (sts : List (Option (List (CircularTensor V)))),
      sts.length = flows.length →
      (((flows.zip sts).reverse.enum).map
          (fun (p : ℕ × (ResidualStack (Fin W → γ0) V R W k ×
            Option (List (CircularTensor V)))) => p.2.1)).reverse = flows := by
    intro sts hlen
    have h1 : (((flows.zip sts).reverse.enum).map
        (fun (p : ℕ × (ResidualStack (Fin W → γ0) V R W k ×
          Option (List (CircularTensor V)))) => p.2.1))
        = ((flows.zip sts).reverse).map Prod.fst := by
      rw [show (fun (p : ℕ × (ResidualStack (Fin W → γ0) V R W k ×
          Option (List (CircularTensor V)))) => p.2.1)
        = (Prod.fst ∘ Prod.snd) from rfl]
      rw [← List.map_map, List.enum_map_snd]
    rw [h1, List.map_reverse, List.reverse_reverse,
      List.map_fst_zip flows sts (by omega)]
  -- the states left by the first call are flow-aligned and well-shaped
  have hstates : List.Forall₂ (fun cs f => StateWF f cs)
      (WaveFlow.synthesize_fast e h W flows (List.replicate flows.length none)
        craw1 t1 noise1).2 flows := by
    have hwf := fastFold_states_wf e h
      ((flows.zip (List.replicate flows.length none)).reverse.enum)
      (noise1.map (fun r => fun w => r w * t1), squeeze h W craw1, []) []
      ?_ List.Forall₂.nil
    · have := hwf
      rw [List.append_nil, hmap (List.replicate flows.length none) (by simp)] at this
      exact this
    · intro p hp
      left
      have hsnd : p.2 ∈ (flows.zip (List.replicate flows.length
          (none : Option (List (CircularTensor V))))).reverse := by
        have hmem : p ∈ ((flows.zip (List.replicate flows.length
            (none : Option (List (CircularTensor V))))).reverse.enum) := hp
        have h2 := List.enum_map_snd ((flows.zip (List.replicate flows.length
            (none : Option (List (CircularTensor V))))).reverse)
        rw [← h2]
        exact List.mem_map_of_mem Prod.snd hmem
      rw [List.mem_reverse] at hsnd
      have := (List.of_mem_zip hsnd).2
      exact List.eq_of_mem_replicate this
  -- compare the second call with the fresh call
  have hlen1 : ((WaveFlow.synthesize_fast e h W flows
      (List.replicate flows.length none) craw1 t1 noise1).2).length = flows.length :=
    List.Forall₂.length_eq hstates
  have hrel := enum_forall₂ _ _ _
    (List.forall₂_reverse_iff.mpr (zip_states_rel e h flows _ hstates))
  have hcong := fastFold_congr e h _ _
    (List.Forall₂.imp (fun a b hx => ⟨hx.1, hx.2.2⟩) hrel)
    (noise2.map (fun r => fun w => r w * t2), squeeze h W craw2, [])
    (noise2.map (fun r => fun w => r w * t2), squeeze h W craw2, [])
    rfl rfl
  simp only [WaveFlow.synthesize_fast] at hcong ⊢
  rw [hcong.1]

/-- Claim C6 counterexample: the reset performed between two
`synthesize_fast` calls (`tensor.zero_()`, modules.py line 209, modelled by
`CircularTensor.zeroed`) zeroes the buffer contents but does *not* reset the
write cursor: after a first call on a one-block model with cache height 3
and grid height 4, the cursor sits at `4 mod 3 = 1` and zeroing leaves it
there. -/
theorem claim_C6_cex :
    (((statesC6.getD 0 []).getD 0 ⟨[], 0⟩).zeroed).tensor = [0, 0, 0] ∧
    (((statesC6.getD 0 []).getD 0 ⟨[], 0⟩).zeroed).cursor ≠ 0 := by
  constructor
  · decide
  · decide

/-- Claim C2 (evaluating the code at the failing input): a fresh one-flow
model with all-zero weights, squeeze factor `h = 4`, width 1, zero
conditioning of length 4, temperature 1 and base noise `[1, 0, 0, 0]`:
`forward(synthesize(c), c)` returns the grid `[0, 0, 1, 0]` — the base
noise with its halves swapped — not the base noise: `synthesize` applies a
half-reversal before inverting the flow (`i > 4` is false at `i = 0`) while
`forward` applied a full reversal after it (`i < 4` at `i = 0`), and the
conditioning is permuted inconsistently with the forward pass, so the
forward and naive inverse transforms are not inverses of each other. -/
theorem claim_C2 :
    (fwdC2.getD 0 0) 0 ≠ (noiseC2.getD 0 0) 0 ∧
    ((fwdC2.getD 0 0) 0, (fwdC2.getD 1 0) 0, (fwdC2.getD 2 0) 0, (fwdC2.getD 3 0) 0)
      = ((0 : ℤ), 0, 1, 0) ∧
    ((noiseC2.getD 0 0) 0, (noiseC2.getD 1 0) 0, (noiseC2.getD 2 0) 0,
      (noiseC2.getD 3 0) 0) = ((1 : ℤ), 0, 0, 0) ∧
    fwdC2.length = noiseC2.length := by
  refine ⟨by decide, by decide, by decide, by decide⟩

/-- Claim C1: for every conditioning signal, temperature and identical base
noise (of grid height `h`, the number of inner inversion steps), the cached
inverse pass `synthesize_fast` — run on a freshly constructed model, i.e.
with all per-flow cache states `None` — produces exactly the same output
signal as the naive inverse pass `synthesize`: the streaming/cached
evaluation path and the parallel recomputation path are numerically
equivalent. -/
theorem claim_C1 {γ0 : Type u} {V : Type v} {R : Type w} {k : ℕ}
    [AddCommMonoid V] [Zero γ0] [LinearOrderedCommRing R] (e : R → R) (h W : ℕ)
    (flows : List (ResidualStack (Fin W → γ0) V R W k))
    (craw : List γ0) (temp : R) (noise : List (Row R W))
    (hn : noise.length = h) :
    (WaveFlow.synthesize_fast e h W flows (List.replicate flows.length none)
        craw temp noise).1
      = WaveFlow.synthesize e h W flows craw temp noise := by
  have hrel : List.Forall₂
      (fun (p : ℕ × (ResidualStack (Fin W → γ0) V R W k ×
          Option (List (CircularTensor V)))) (q : ℕ × ResidualStack (Fin W → γ0) V R W k)
        => p.1 = q.1 ∧ p.2.1 = q.2 ∧ p.2.2 = none)
      ((flows.zip (List.replicate flows.length none)).reverse.enum)
      (flows.reverse.enum) := by
    refine enum_forall₂
      (fun (a : ResidualStack (Fin W → γ0) V R W k ×
          Option (List (CircularTensor V))) b => a.1 = b ∧ a.2 = none) _ _ ?_
    exact (List.forall₂_reverse_iff).mpr (zip_replicate_none flows)
  have hmain := fastFold_eq_naive e h _ _ hrel
    (noise.map (fun r => fun w => r w * temp)) (squeeze h W craw) []
    (by rw [List.length_map, hn])
  simp only [WaveFlow.synthesize_fast, WaveFlow.synthesize]
  rw [hmain.1]

/-- Witness for C1 at a concrete fresh one-flow model over ℤ. -/
theorem claim_C1_witness :
    ([fun _ => (1 : ℤ)] : List (Row ℤ 1)).length = 1 ∧
    (WaveFlow.synthesize_fast oneExp 1 1 [zeroStack] (List.replicate 1 none)
        [0] 1 [fun _ => 1]).1
      = WaveFlow.synthesize oneExp 1 1 [zeroStack] [0] 1 [fun _ => 1] :=
  ⟨rfl, claim_C1 oneExp 1 1 [zeroStack] [0] 1 [fun _ => 1] rfl⟩

end Waveflow
